import Mathlib

/-
Verification of the reduction engine of the NP-reduction-visualization
repository: the 3-SAT data model (`npvis/problem/three_sat.py`), the graph
model (`npvis/element/graph/graph.py`), the independent-set problem
(`npvis/problem/independent_set.py`), and the two reductions
(`npvis/reduction/three_sat_to_independent_set.py`,
`npvis/reduction/three_sat_to_3color.py`).

The Python code is shallowly embedded: Python lists and insertion-ordered
dicts become Lean lists, Python sets of identity-distinct objects (every
`add` call inserts a freshly constructed object) become Lean lists as well,
so insertion always appends.  Debug printing is I/O and is not modelled.
-/

namespace NPVis

/-- Literal of a 3-CNF clause: the `Variable` class of
`npvis/element/formula/variable.py` restricted to the fields the engine
reads (`name`, `is_negated`).  Distinct occurrences of the same
variable/polarity are distinct `Variable` objects in Python; occurrences
are identified below by their (clause index, literal index) position. -/
structure Literal where
  name : String
  is_negated : Bool
deriving DecidableEq, Repr

/-- Clause: the ordered list `Clause.variables`. -/
abbrev Clause := List Literal

/-- Formula: the ordered list `Formula.clauses`. -/
abbrev Formula := List Clause

/-- Node of the target graph (`npvis/element/graph/node.py`): unique
`node_id` plus display name.  The ids produced by the builders are unique,
so structural equality coincides with Python object identity. -/
structure Node where
  node_id : Nat
  name : String
deriving DecidableEq, Repr

/-- Edge (`npvis/element/graph/edge.py`): an ordered pair of nodes as
stored; adjacency queries treat it as unordered. -/
structure Edge where
  node1 : Node
  node2 : Node
deriving DecidableEq, Repr

/-- Graph (`npvis/element/graph/graph.py`): `nodes` and `edges` are Python
sets of identity-distinct objects; we keep them in insertion order. -/
structure Graph where
  nodes : List Node
  edges : List Edge
deriving DecidableEq, Repr

/-- Python dictionary with string keys and boolean values (a SAT
assignment as used by `ThreeSATProblem.evaluate`). -/
abbrev Dict := List (String × Bool)

/-- Python `d.get(k, dflt)`. -/
def dictGet (d : Dict) (k : String) (dflt : Bool) : Bool :=
  match d.find? (fun p => p.1 == k) with
  | some p => p.2
  | none => dflt

/-- Python `d.setdefault(k, v)` restricted to its effect on the dict:
insert `(k, v)` only when `k` is not yet a key. -/
def setdefault (d : Dict) (k : String) (v : Bool) : Dict :=
  if d.any (fun p => p.1 == k) then d else d ++ [(k, v)]

/-- Total assignment (the hypotheses of the round-trip claims assume the
caller supplies a value for every variable, as `sat_assignment[var_id]`
indexing requires). -/
abbrev Assignment := String → Bool

/-- ThreeSATProblem._evaluate_clause: a clause is satisfied when some
literal has `assignment.get(var.name, False) != var.is_negated` (the loop
with `break` is `List.any`). -/
def evaluate_clause (c : Clause) (a : Dict) : Bool :=
  c.any fun v => dictGet a v.name false != v.is_negated

/-- ThreeSATProblem.evaluate: all clauses satisfied. -/
def evaluate3Sat (phi : Formula) (a : Dict) : Bool :=
  phi.all fun c => evaluate_clause c a

/-- Semantic satisfaction by a total assignment (used as the hypothesis
"A satisfies phi" of the round-trip claims). -/
abbrev Satisfies (phi : Formula) (A : Assignment) : Prop :=
  ∀ c ∈ phi, ∃ l ∈ c, A l.name = !l.is_negated

/-- Python values that can appear in the collection handed to
`IndependentSetProblem.evaluate`: integer node ids, or (as
`Reduction.test_solution` actually passes) `Node` objects. -/
inductive PyVal where
  | int (i : Nat)
  | node (n : Node)
deriving DecidableEq, Repr

/-- Python `==` on such values: `int.__eq__` with a `Node` argument falls
back to identity and yields `False`; `Node` has no `__eq__`, so two nodes
compare by identity (structural equality here, ids being unique). -/
def pyEq : PyVal → PyVal → Bool
  | .int i, .int j => i == j
  | .node a, .node b => a == b
  | _, _ => false

/-- Graph.get_node_by_id: first node whose `node_id` compares `==` to the
argument. -/
def get_node_by_id (g : Graph) (v : PyVal) : Option Node :=
  g.nodes.find? fun n => pyEq (.int n.node_id) v

/-- Graph.hasEdge: `edge.node1 == node1 and edge.node2 == node2` or the
swap, over all edges; the arguments may be `None` (`Option.none`), and
`Node == None` is `False` in Python. -/
def hasEdge (g : Graph) (n1 n2 : Option Node) : Bool :=
  g.edges.any fun e =>
    (some e.node1 == n1 && some e.node2 == n2) ||
    (some e.node1 == n2 && some e.node2 == n1)

/-- IndependentSetProblem.evaluate: `False` as soon as two distinct
members of the collection have an edge between the nodes
`get_node_by_id` resolves them to, else `True`.  (The `set(node_ids)`
conversion only deduplicates and cannot change this boolean.) -/
def evaluateIS (g : Graph) (node_ids : List PyVal) : Bool :=
  !(node_ids.any fun a => node_ids.any fun b =>
    !pyEq a b && hasEdge g (get_node_by_id g a) (get_node_by_id g b))

/-- Graph.add_edge as reached from `IndependentSetProblem.add_edge`: a
fresh `Edge` object is constructed and added to the edge set, hence always
inserted. -/
def add_edge (g : Graph) (u v : Node) : Graph :=
  { g with edges := g.edges ++ [⟨u, v⟩] }

/-- Membership of an unordered node pair in the edge set, as queried by
`hasEdge` on actual nodes. -/
def adjacent (g : Graph) (u v : Node) : Bool :=
  hasEdge g (some u) (some v)

/-- Independent set in the intended (id-free) sense: no two distinct
members are adjacent. -/
abbrev IsIndepSet (g : Graph) (s : List Node) : Prop :=
  ∀ u ∈ s, ∀ v ∈ s, u ≠ v → adjacent g u v = false

end NPVis

namespace NPVis

/-! Embedding of `ThreeSatToThreeColoringReduction`
(`npvis/reduction/three_sat_to_3color.py`).  A clause is a triple of
literals (`solution1_to_solution2` unpacks `l1, l2, l3 = clause.variables`).
Only engine state is modelled: the target problem's node counter, the
graph, and the class attributes `base_node`/`true_node`/`false_node`,
`var_nodes` and `clause_outputs`; display grouping and the click-highlight
maps are presentation-only. -/

/-- Literal-satisfaction test of the forward mapping:
`assigned_val != is_negated`. -/
def litSat (A : Assignment) (l : Literal) : Bool :=
  A l.name != l.is_negated

/-- Clause with exactly three literals. -/
abbrev Clause3 := Literal × Literal × Literal

/-- Formula for the 3-coloring reduction. -/
abbrev Formula3 := List Clause3

/-- Engine state of a `ThreeSatToThreeColoringReduction`. -/
structure ColState where
  next_node_id : Nat
  nodes : List Node
  edges : List Edge
  base_node : Node
  true_node : Node
  false_node : Node
  var_nodes : List (String × Node × Node)
  clause_outputs : List ((Node × Node × Node) × (Node × Node × Node))
deriving DecidableEq, Repr

/-- Fresh reduction over an empty `ThreeColoringProblem` (`next_node_id`
is 1; the three base-node attributes start as `None`, modelled by a dummy
node that the build immediately overwrites). -/
def initColState : ColState := ⟨1, [], [], ⟨0, ""⟩, ⟨0, ""⟩, ⟨0, ""⟩, [], []⟩

/-- ThreeColoringProblem.add_node. -/
def addNodeC (st : ColState) (name : String) : ColState × Node :=
  let nd : Node := ⟨st.next_node_id, name⟩
  ({ st with next_node_id := st.next_node_id + 1, nodes := st.nodes ++ [nd] }, nd)

/-- ThreeColoringProblem.add_edge (a fresh `Edge` object each call). -/
def addEdgeC (st : ColState) (a b : Node) : ColState :=
  { st with edges := st.edges ++ [⟨a, b⟩] }

/-- _build_color_base: the Base/True/False triangle. -/
def build_color_base (st : ColState) : ColState :=
  let p1 := addNodeC st "Base"
  let p2 := addNodeC p1.1 "True"
  let p3 := addNodeC p2.1 "False"
  let st4 := addEdgeC (addEdgeC (addEdgeC p3.1 p1.2 p2.2) p2.2 p3.2) p3.2 p1.2
  { st4 with base_node := p1.2, true_node := p2.2, false_node := p3.2 }

/-- Lexicographic comparison on code points (Python `<` on str). -/
def charListLt : List Char → List Char → Bool
  | [], [] => false
  | [], _ :: _ => true
  | _ :: _, [] => false
  | a :: as, b :: bs =>
    if a.toNat < b.toNat then true
    else if b.toNat < a.toNat then false
    else charListLt as bs

/-- Python string `<`. -/
def strLt (s t : String) : Bool := charListLt s.data t.data

/-- Insertion into a sorted list. -/
def insertSorted (x : String) : List String → List String
  | [] => [x]
  | y :: ys => if strLt x y then x :: y :: ys else y :: insertSorted x ys

/-- Python `sorted(...)` on distinct strings (insertion sort; any correct
sort agrees on a duplicate-free list). -/
def sortStrings : List String → List String
  | [] => []
  | x :: xs => insertSorted x (sortStrings xs)

/-- `sorted({v.name for clause in clauses for v in clause.variables})`. -/
def varNames3 (phi : Formula3) : List String :=
  sortStrings ((phi.flatMap (fun cl => [cl.1.name, cl.2.1.name, cl.2.2.name])).dedup)

/-- Python dict assignment `var_nodes[name] = (p, n)`: replace in place
when the key exists (insertion order is preserved on update), else
append. -/
def assignVarNode (vns : List (String × Node × Node)) (name : String) (p n : Node) :
    List (String × Node × Node) :=
  if vns.any (fun e => e.1 == name) then
    vns.map (fun e => if e.1 == name then (name, p, n) else e)
  else vns ++ [(name, p, n)]

/-- Body of the `for name in names` loop of _build_variable_gadgets:
positive and negative nodes, the three gadget edges, and the
`var_nodes[name] = (p, n)` record. -/
def build_variable_gadget (st : ColState) (name : String) : ColState :=
  let q1 := addNodeC st name
  let q2 := addNodeC q1.1 ("¬" ++ name)
  let st3 := addEdgeC q2.1 q1.2 q2.2
  let st4 := addEdgeC st3 q1.2 st.base_node
  let st5 := addEdgeC st4 q2.2 st.base_node
  { st5 with var_nodes := assignVarNode st5.var_nodes name q1.2 q2.2 }

/-- _build_variable_gadgets (the click-highlight registration is
display-only and not modelled). -/
def build_variable_gadgets (st : ColState) (names : List String) : ColState :=
  names.foldl build_variable_gadget st

/-- _build_or_gadget: three fresh nodes and the five wiring edges. -/
def build_or_gadget (st : ColState) (a b : Node) : ColState × Node × Node × Node :=
  let q1 := addNodeC st "in1"
  let q2 := addNodeC q1.1 "in2"
  let q3 := addNodeC q2.1 "out"
  let st8 := addEdgeC (addEdgeC (addEdgeC (addEdgeC (addEdgeC q3.1
    q1.2 a) q2.2 b) q1.2 q2.2) q2.2 q3.2) q3.2 q1.2
  (st8, q1.2, q2.2, q3.2)

/-- `self.var_nodes[lit.name]` (always present in the built state; the
default is never reached there). -/
def varNodesLookup (vns : List (String × Node × Node)) (name : String) : Node × Node :=
  ((vns.find? (fun e => e.1 == name)).map (fun e => e.2)).getD (⟨0, ""⟩, ⟨0, ""⟩)

/-- Node standing for a literal's truth: `n if lit.is_negated else p`. -/
def litNodeOf (vns : List (String × Node × Node)) (l : Literal) : Node :=
  let pn := varNodesLookup vns l.name
  if l.is_negated then pn.2 else pn.1

/-- Body of the clause loop of _build_clause_gadgets: two chained OR
gadgets, the `out123`-to-base and `out123`-to-false edges, and the
`clause_outputs` record. -/
def build_clause_gadget (st : ColState) (cl : Clause3) : ColState :=
  let n1 := litNodeOf st.var_nodes cl.1
  let n2 := litNodeOf st.var_nodes cl.2.1
  let n3 := litNodeOf st.var_nodes cl.2.2
  let r1 := build_or_gadget st n1 n2
  let r2 := build_or_gadget r1.1 r1.2.2.2 n3
  let st3 := addEdgeC r2.1 r2.2.2.2 st.base_node
  let st4 := addEdgeC st3 r2.2.2.2 st.false_node
  { st4 with clause_outputs := st4.clause_outputs ++
      [((r1.2.1, r1.2.2.1, r1.2.2.2), (r2.2.1, r2.2.2.1, r2.2.2.2))] }

/-- _build_clause_gadgets: resets `clause_outputs` to `[]`, then the
clause loop. -/
def build_clause_gadgets (st : ColState) (phi : Formula3) : ColState :=
  phi.foldl build_clause_gadget { st with clause_outputs := [] }

/-- ThreeSatToThreeColoringReduction.build_graph_from_formula starting
from a fresh instance. -/
def build_graph_3col (phi : Formula3) : ColState :=
  build_clause_gadgets
    (build_variable_gadgets (build_color_base initColState) (varNames3 phi)) phi

/-- The three color classes `S_true` / `S_false` / `S_base` of
`solution1_to_solution2`. -/
inductive ColClass where
  | Ctrue
  | Cfalse
  | Cbase
deriving DecidableEq, Repr, Fintype

/-- The returned solution `[S_true, S_false, S_base]`; each field is the
insertion-ordered content of the Python set. -/
structure SolSets where
  S_true : List Node
  S_false : List Node
  S_base : List Node
deriving DecidableEq, Repr

/-- Add a node to the set named by the table entry. -/
def addToClass (ss : SolSets) (c : ColClass) (nd : Node) : SolSets :=
  match c with
  | .Ctrue => { ss with S_true := ss.S_true ++ [nd] }
  | .Cfalse => { ss with S_false := ss.S_false ++ [nd] }
  | .Cbase => { ss with S_base := ss.S_base ++ [nd] }

/-- The hard-coded 8-entry lookup table of `solution1_to_solution2`:
`(v1, v2, v3) ↦ ([g1_12, g2_12, out12], [g1_123, g2_123, out123])`. -/
def orTable : Bool × Bool × Bool →
    (ColClass × ColClass × ColClass) × (ColClass × ColClass × ColClass)
  | (false, false, false) => ((.Cbase, .Ctrue, .Cfalse), (.Cbase, .Cbase, .Ctrue))
  | (false, false, true) => ((.Cbase, .Ctrue, .Cfalse), (.Cbase, .Cfalse, .Ctrue))
  | (false, true, false) => ((.Cbase, .Cfalse, .Ctrue), (.Cfalse, .Cbase, .Ctrue))
  | (false, true, true) => ((.Ctrue, .Cbase, .Cfalse), (.Cbase, .Cfalse, .Ctrue))
  | (true, false, false) => ((.Cfalse, .Ctrue, .Cbase), (.Cfalse, .Cbase, .Ctrue))
  | (true, false, true) => ((.Cbase, .Ctrue, .Cfalse), (.Cbase, .Cfalse, .Ctrue))
  | (true, true, false) => ((.Cbase, .Cfalse, .Ctrue), (.Cfalse, .Cbase, .Ctrue))
  | (true, true, true) => ((.Cbase, .Cfalse, .Ctrue), (.Cbase, .Cfalse, .Ctrue))

/-- Truth values `(v1, v2, v3)` of a clause's literals
(`sat_assignment[l.name] != l.is_negated`). -/
def clauseVals (A : Assignment) (cl : Clause3) : Bool × Bool × Bool :=
  (litSat A cl.1, litSat A cl.2.1, litSat A cl.2.2)

/-- ThreeSatToThreeColoringReduction.solution1_to_solution2: base
triangle, variable gadgets per assignment, then the table-driven clause
gadget coloring (clause `ci` uses `clause_outputs[ci]`, here the
element-wise zip). -/
def solution1_to_solution2_col (phi : Formula3) (st : ColState) (A : Assignment) :
    SolSets :=
  let ss0 : SolSets := ⟨[st.true_node], [st.false_node], [st.base_node]⟩
  let ss1 := st.var_nodes.foldl (fun ss e =>
    if A e.1 then addToClass (addToClass ss .Ctrue e.2.1) .Cfalse e.2.2
    else addToClass (addToClass ss .Cfalse e.2.1) .Ctrue e.2.2) ss0
  (phi.zip st.clause_outputs).foldl (fun ss p =>
    let t := orTable (clauseVals A p.1)
    addToClass (addToClass (addToClass (addToClass (addToClass (addToClass ss
      t.1.1 p.2.1.1) t.1.2.1 p.2.1.2.1) t.1.2.2 p.2.1.2.2)
      t.2.1 p.2.2.1) t.2.2.1 p.2.2.2.1) t.2.2.2 p.2.2.2.2) ss1

/-- ThreeColoringProblem.evaluate: a coloring is proper when no edge's
endpoints carry the same color. -/
def evaluate3Col (edges : List Edge) (χ : Node → ColClass) : Bool :=
  edges.all fun e => !(χ e.node1 == χ e.node2)

/-! Canonical closed forms of the 3-coloring build: node ids run 1..3 for
the base triangle, then two per variable name in sorted order, then six
per clause. -/

/-- The Base node, id 1. -/
def baseB : Node := ⟨1, "Base"⟩

/-- The True node, id 2. -/
def baseT : Node := ⟨2, "True"⟩

/-- The False node, id 3. -/
def baseF : Node := ⟨3, "False"⟩

/-- var_nodes after the variable-gadget phase over `names` from id `s`. -/
def canonVarNodes : List String → Nat → List (String × Node × Node)
  | [], _ => []
  | x :: rest, s => (x, ⟨s, x⟩, ⟨s + 1, "¬" ++ x⟩) :: canonVarNodes rest (s + 2)

/-- Nodes added by the variable-gadget phase, in insertion order. -/
def canonVarNodesFlat : List String → Nat → List Node
  | [], _ => []
  | x :: rest, s => ⟨s, x⟩ :: ⟨s + 1, "¬" ++ x⟩ :: canonVarNodesFlat rest (s + 2)

/-- Edges added by the variable-gadget phase: pos–neg, pos–base,
neg–base per variable. -/
def canonVarEdges (bnode : Node) : List String → Nat → List Edge
  | [], _ => []
  | x :: rest, s =>
    ⟨⟨s, x⟩, ⟨s + 1, "¬" ++ x⟩⟩ :: ⟨⟨s, x⟩, bnode⟩ :: ⟨⟨s + 1, "¬" ++ x⟩, bnode⟩ ::
      canonVarEdges bnode rest (s + 2)

/-- The six gadget nodes of one clause, ids `s..s+5`. -/
def gadgetNodes6 (s : Nat) : List Node :=
  [⟨s, "in1"⟩, ⟨s + 1, "in2"⟩, ⟨s + 2, "out"⟩,
   ⟨s + 3, "in1"⟩, ⟨s + 4, "in2"⟩, ⟨s + 5, "out"⟩]

/-- The twelve edges one clause gadget adds: five per OR gadget (inputs
`n1, n2` then `out12, n3`) plus `out123`–base and `out123`–false. -/
def gadgetEdges12 (s : Nat) (n1 n2 n3 bnode fnode : Node) : List Edge :=
  [⟨⟨s, "in1"⟩, n1⟩, ⟨⟨s + 1, "in2"⟩, n2⟩, ⟨⟨s, "in1"⟩, ⟨s + 1, "in2"⟩⟩,
   ⟨⟨s + 1, "in2"⟩, ⟨s + 2, "out"⟩⟩, ⟨⟨s + 2, "out"⟩, ⟨s, "in1"⟩⟩,
   ⟨⟨s + 3, "in1"⟩, ⟨s + 2, "out"⟩⟩, ⟨⟨s + 4, "in2"⟩, n3⟩,
   ⟨⟨s + 3, "in1"⟩, ⟨s + 4, "in2"⟩⟩, ⟨⟨s + 4, "in2"⟩, ⟨s + 5, "out"⟩⟩,
   ⟨⟨s + 5, "out"⟩, ⟨s + 3, "in1"⟩⟩, ⟨⟨s + 5, "out"⟩, bnode⟩,
   ⟨⟨s + 5, "out"⟩, fnode⟩]

/-- Nodes added by the clause-gadget phase. -/
def canonGadgetNodes : Formula3 → Nat → List Node
  | [], _ => []
  | _ :: rest, s => gadgetNodes6 s ++ canonGadgetNodes rest (s + 6)

/-- Edges added by the clause-gadget phase. -/
def canonGadgetEdges (vns : List (String × Node × Node)) (bnode fnode : Node) :
    Formula3 → Nat → List Edge
  | [], _ => []
  | cl :: rest, s =>
    gadgetEdges12 s (litNodeOf vns cl.1) (litNodeOf vns cl.2.1) (litNodeOf vns cl.2.2)
        bnode fnode ++ canonGadgetEdges vns bnode fnode rest (s + 6)

/-- clause_outputs after the clause-gadget phase. -/
def canonOutputs : Formula3 → Nat → List ((Node × Node × Node) × (Node × Node × Node))
  | [], _ => []
  | _ :: rest, s =>
    ((⟨s, "in1"⟩, ⟨s + 1, "in2"⟩, ⟨s + 2, "out"⟩),
     (⟨s + 3, "in1"⟩, ⟨s + 4, "in2"⟩, ⟨s + 5, "out"⟩)) :: canonOutputs rest (s + 6)

theorem assignVarNode_of_fresh {vns : List (String × Node × Node)} {name : String}
    (h : ∀ e ∈ vns, e.1 ≠ name) (p n : Node) :
    assignVarNode vns name p n = vns ++ [(name, p, n)] := by
  have hc : vns.any (fun e => e.1 == name) = false := by
    rw [List.any_eq_false]
    intro e he
    exact fun hc => h e he (eq_of_beq hc)
  rw [assignVarNode, hc]
  simp

theorem insertSorted_perm (x : String) (l : List String) :
    (insertSorted x l).Perm (x :: l) := by
  induction l with
  | nil => exact List.Perm.refl _
  | cons a rest ih =>
    rw [insertSorted]
    by_cases h : strLt x a = true
    · rw [if_pos h]
    · rw [if_neg h]
      exact (ih.cons a).trans (List.Perm.swap x a rest)

theorem sortStrings_perm (l : List String) : (sortStrings l).Perm l := by
  induction l with
  | nil => exact List.Perm.refl _
  | cons x rest ih =>
    rw [sortStrings]
    exact (insertSorted_perm x (sortStrings rest)).trans (ih.cons x)

theorem varNames3_nodup (phi : Formula3) : (varNames3 phi).Nodup := by
  rw [varNames3]
  exact (sortStrings_perm _).nodup_iff.mpr (List.nodup_dedup _)

theorem build_variable_gadgets_spec :
    ∀ (names : List String) (st : ColState), names.Nodup →
      (∀ e ∈ st.var_nodes, e.1 ∉ names) →
      build_variable_gadgets st names =
        { st with next_node_id := st.next_node_id + 2 * names.length,
                  nodes := st.nodes ++ canonVarNodesFlat names st.next_node_id,
                  edges := st.edges ++ canonVarEdges st.base_node names st.next_node_id,
                  var_nodes := st.var_nodes ++ canonVarNodes names st.next_node_id } := by
  intro names
  induction names with
  | nil =>
    intro st _ _
    simp [build_variable_gadgets, canonVarNodesFlat, canonVarEdges, canonVarNodes]
  | cons x rest ih =>
    intro st hnd hdisj
    have hx : ∀ e ∈ st.var_nodes, e.1 ≠ x := fun e he hex =>
      hdisj e he (by rw [hex]; exact List.mem_cons_self _ _)
    have hxmem : x ∉ rest := (List.nodup_cons.mp hnd).1
    have hnd2 : rest.Nodup := (List.nodup_cons.mp hnd).2
    have hv : (build_variable_gadget st x).var_nodes =
        st.var_nodes ++ [(x, ⟨st.next_node_id, x⟩, ⟨st.next_node_id + 1, "¬" ++ x⟩)] := by
      simp only [build_variable_gadget, addNodeC, addEdgeC]
      exact assignVarNode_of_fresh hx _ _
    have hdisj2 : ∀ e ∈ (build_variable_gadget st x).var_nodes, e.1 ∉ rest := by
      intro e he
      rw [hv] at he
      rcases List.mem_append.mp he with he | he
      · exact fun hmem => hdisj e he (List.mem_cons_of_mem _ hmem)
      · simp only [List.mem_singleton] at he
        subst he
        exact hxmem
    have hstep : build_variable_gadgets st (x :: rest) =
        build_variable_gadgets (build_variable_gadget st x) rest := rfl
    rw [hstep, ih _ hnd2 hdisj2]
    simp only [build_variable_gadget, addNodeC, addEdgeC, assignVarNode_of_fresh hx,
      canonVarNodesFlat, canonVarEdges, canonVarNodes, List.length_cons,
      ColState.mk.injEq, List.append_assoc, List.cons_append, List.nil_append,
      List.singleton_append, Nat.add_assoc, and_true, true_and]
    omega

theorem build_clause_fold_spec (phi : Formula3) (st : ColState) :
    phi.foldl build_clause_gadget st =
      { st with next_node_id := st.next_node_id + 6 * phi.length,
                nodes := st.nodes ++ canonGadgetNodes phi st.next_node_id,
                edges := st.edges ++
                  canonGadgetEdges st.var_nodes st.base_node st.false_node phi
                    st.next_node_id,
                clause_outputs := st.clause_outputs ++ canonOutputs phi st.next_node_id } := by
  induction phi generalizing st with
  | nil => simp [canonGadgetNodes, canonGadgetEdges, canonOutputs]
  | cons cl rest ih =>
    have hstep : (cl :: rest).foldl build_clause_gadget st =
        rest.foldl build_clause_gadget (build_clause_gadget st cl) := rfl
    rw [hstep, ih]
    simp only [build_clause_gadget, build_or_gadget, addNodeC, addEdgeC,
      canonGadgetNodes, canonGadgetEdges, canonOutputs, gadgetNodes6, gadgetEdges12,
      List.length_cons, ColState.mk.injEq, List.append_assoc, List.cons_append,
      List.nil_append, List.singleton_append, Nat.add_assoc, and_true, true_and]
    omega

theorem build_color_base_init :
    build_color_base initColState =
      ⟨4, [baseB, baseT, baseF],
       [⟨baseB, baseT⟩, ⟨baseT, baseF⟩, ⟨baseF, baseB⟩],
       baseB, baseT, baseF, [], []⟩ := by
  rfl

theorem build_graph_3col_eq (phi : Formula3) :
    build_graph_3col phi =
      ⟨4 + 2 * (varNames3 phi).length + 6 * phi.length,
       [baseB, baseT, baseF] ++ canonVarNodesFlat (varNames3 phi) 4 ++
         canonGadgetNodes phi (4 + 2 * (varNames3 phi).length),
       [⟨baseB, baseT⟩, ⟨baseT, baseF⟩, ⟨baseF, baseB⟩] ++
         canonVarEdges baseB (varNames3 phi) 4 ++
         canonGadgetEdges (canonVarNodes (varNames3 phi) 4) baseB baseF phi
           (4 + 2 * (varNames3 phi).length),
       baseB, baseT, baseF,
       canonVarNodes (varNames3 phi) 4,
       canonOutputs phi (4 + 2 * (varNames3 phi).length)⟩ := by
  rw [build_graph_3col, build_color_base_init,
    build_variable_gadgets_spec (varNames3 phi)
      ⟨4, [baseB, baseT, baseF],
       [⟨baseB, baseT⟩, ⟨baseT, baseF⟩, ⟨baseF, baseB⟩],
       baseB, baseT, baseF, [], []⟩
      (varNames3_nodup phi) (by intro e he; simp at he),
    build_clause_gadgets, build_clause_fold_spec]
  simp only [ColState.mk.injEq, List.append_assoc, List.nil_append, List.cons_append,
    and_true, true_and]

/-- Color induced by a truth value on a variable-gadget node. -/
def colorOfBool (b : Bool) : ColClass := if b then .Ctrue else .Cfalse

/-- Canonical color of each variable-gadget node under an assignment:
`pos` is true-colored iff the variable is true, `neg` the opposite. -/
def canonVarAssign (A : Assignment) : List String → Nat → List (Node × ColClass)
  | [], _ => []
  | x :: rest, s =>
    (⟨s, x⟩, colorOfBool (A x)) :: (⟨s + 1, "¬" ++ x⟩, colorOfBool (!A x)) ::
      canonVarAssign A rest (s + 2)

/-- Colors of the six gadget nodes of one clause per a table row. -/
def gadgetAssign6 (s : Nat)
    (t : (ColClass × ColClass × ColClass) × (ColClass × ColClass × ColClass)) :
    List (Node × ColClass) :=
  [(⟨s, "in1"⟩, t.1.1), (⟨s + 1, "in2"⟩, t.1.2.1), (⟨s + 2, "out"⟩, t.1.2.2),
   (⟨s + 3, "in1"⟩, t.2.1), (⟨s + 4, "in2"⟩, t.2.2.1), (⟨s + 5, "out"⟩, t.2.2.2)]

/-- Canonical colors of all gadget nodes. -/
def canonClauseAssign (A : Assignment) : Formula3 → Nat → List (Node × ColClass)
  | [], _ => []
  | cl :: rest, s =>
    gadgetAssign6 s (orTable (clauseVals A cl)) ++ canonClauseAssign A rest (s + 6)

/-- Canonical color of every node of the built graph under the forward
mapping for assignment `A`. -/
def canonColAssign (phi : Formula3) (A : Assignment) : List (Node × ColClass) :=
  [(baseB, .Cbase), (baseT, .Ctrue), (baseF, .Cfalse)] ++
    canonVarAssign A (varNames3 phi) 4 ++
    canonClauseAssign A phi (4 + 2 * (varNames3 phi).length)

/-- Fold a list of (node, class) insertions into the three sets. -/
def addAssign (ss : SolSets) (l : List (Node × ColClass)) : SolSets :=
  l.foldl (fun ss e => addToClass ss e.2 e.1) ss

/-- Nodes of one class, in list order. -/
def filterClass (l : List (Node × ColClass)) (c : ColClass) : List Node :=
  (l.filter (fun e => e.2 == c)).map (fun e => e.1)

theorem filterClass_append (l1 l2 : List (Node × ColClass)) (c : ColClass) :
    filterClass (l1 ++ l2) c = filterClass l1 c ++ filterClass l2 c := by
  simp [filterClass]

theorem addAssign_eq (ss : SolSets) (l : List (Node × ColClass)) :
    addAssign ss l = ⟨ss.S_true ++ filterClass l .Ctrue,
                      ss.S_false ++ filterClass l .Cfalse,
                      ss.S_base ++ filterClass l .Cbase⟩ := by
  induction l generalizing ss with
  | nil => simp [addAssign, filterClass]
  | cons e rest ih =>
    have hstep : addAssign ss (e :: rest) = addAssign (addToClass ss e.2 e.1) rest := rfl
    rw [hstep, ih]
    cases hc : e.2 <;>
      simp [addToClass, filterClass, List.filter_cons, hc, List.append_assoc]

theorem addAssign_append (ss : SolSets) (l1 l2 : List (Node × ColClass)) :
    addAssign ss (l1 ++ l2) = addAssign (addAssign ss l1) l2 :=
  List.foldl_append _ _ _ _

theorem sol_var_fold (A : Assignment) (names : List String) (s : Nat) (ss : SolSets) :
    (canonVarNodes names s).foldl (fun ss e =>
      if A e.1 then addToClass (addToClass ss .Ctrue e.2.1) .Cfalse e.2.2
      else addToClass (addToClass ss .Cfalse e.2.1) .Ctrue e.2.2) ss =
      addAssign ss (canonVarAssign A names s) := by
  induction names generalizing s ss with
  | nil => rfl
  | cons x rest ih =>
    simp only [canonVarNodes, List.foldl_cons, canonVarAssign]
    rw [ih]
    by_cases hA : A x = true
    · simp [hA, addAssign, colorOfBool]
    · rw [Bool.not_eq_true] at hA
      simp [hA, addAssign, colorOfBool]

theorem sol_clause_fold (A : Assignment) (cls : Formula3) (s : Nat) (ss : SolSets) :
    ((cls.zip (canonOutputs cls s)).foldl (fun ss p =>
      let t := orTable (clauseVals A p.1)
      addToClass (addToClass (addToClass (addToClass (addToClass (addToClass ss
        t.1.1 p.2.1.1) t.1.2.1 p.2.1.2.1) t.1.2.2 p.2.1.2.2)
        t.2.1 p.2.2.1) t.2.2.1 p.2.2.2.1) t.2.2.2 p.2.2.2.2) ss) =
      addAssign ss (canonClauseAssign A cls s) := by
  induction cls generalizing s ss with
  | nil => rfl
  | cons cl rest ih =>
    simp only [canonOutputs, List.zip_cons_cons, List.foldl_cons, canonClauseAssign]
    rw [ih]
    rfl

theorem sol1to2_col_eq (phi : Formula3) (A : Assignment) :
    solution1_to_solution2_col phi (build_graph_3col phi) A =
      ⟨filterClass (canonColAssign phi A) .Ctrue,
       filterClass (canonColAssign phi A) .Cfalse,
       filterClass (canonColAssign phi A) .Cbase⟩ := by
  rw [solution1_to_solution2_col, build_graph_3col_eq]
  simp only
  rw [sol_var_fold, sol_clause_fold, ← addAssign_append, addAssign_eq]
  rw [canonColAssign]
  simp only [filterClass_append, filterClass]
  simp [List.filter_cons]

theorem canonVarAssign_id_bounds {A : Assignment} :
    ∀ (names : List String) (s : Nat), ∀ p ∈ canonVarAssign A names s,
      s ≤ p.1.node_id ∧ p.1.node_id < s + 2 * names.length := by
  intro names
  induction names with
  | nil => intro s p hp; simp [canonVarAssign] at hp
  | cons x rest ih =>
    intro s p hp
    simp only [canonVarAssign, List.mem_cons] at hp
    rcases hp with rfl | hp
    · simp only [List.length_cons]
      omega
    · rcases hp with rfl | hp
      · simp only [List.length_cons]
        omega
      · have := ih (s + 2) p hp
        simp only [List.length_cons]
        omega

theorem canonClauseAssign_id_bounds {A : Assignment} :
    ∀ (cls : Formula3) (s : Nat), ∀ p ∈ canonClauseAssign A cls s,
      s ≤ p.1.node_id ∧ p.1.node_id < s + 6 * cls.length := by
  intro cls
  induction cls with
  | nil => intro s p hp; simp [canonClauseAssign] at hp
  | cons cl rest ih =>
    intro s p hp
    simp only [canonClauseAssign, List.mem_append] at hp
    rcases hp with hp | hp
    · simp only [gadgetAssign6, List.mem_cons, List.mem_singleton] at hp
      rcases hp with rfl | rfl | rfl | rfl | rfl | (rfl | h)
      all_goals simp only [List.length_cons]
      all_goals first
        | omega
        | simp at h
    · have := ih (s + 6) p hp
      simp only [List.length_cons]
      omega

theorem gadgetAssign6_pairwise {s : Nat}
    {t : (ColClass × ColClass × ColClass) × (ColClass × ColClass × ColClass)} :
    (gadgetAssign6 s t).Pairwise (fun a b => a.1.node_id < b.1.node_id) := by
  rw [gadgetAssign6]
  refine List.Pairwise.cons ?_ (List.Pairwise.cons ?_ (List.Pairwise.cons ?_
    (List.Pairwise.cons ?_ (List.Pairwise.cons ?_ (List.Pairwise.cons ?_
      List.Pairwise.nil)))))
  · intro b hb
    simp only [List.mem_cons, List.not_mem_nil, or_false] at hb
    rcases hb with rfl | rfl | rfl | rfl | rfl
    · show s < s + 1
      omega
    · show s < s + 2
      omega
    · show s < s + 3
      omega
    · show s < s + 4
      omega
    · show s < s + 5
      omega
  · intro b hb
    simp only [List.mem_cons, List.not_mem_nil, or_false] at hb
    rcases hb with rfl | rfl | rfl | rfl
    · show s + 1 < s + 2
      omega
    · show s + 1 < s + 3
      omega
    · show s + 1 < s + 4
      omega
    · show s + 1 < s + 5
      omega
  · intro b hb
    simp only [List.mem_cons, List.not_mem_nil, or_false] at hb
    rcases hb with rfl | rfl | rfl
    · show s + 2 < s + 3
      omega
    · show s + 2 < s + 4
      omega
    · show s + 2 < s + 5
      omega
  · intro b hb
    simp only [List.mem_cons, List.not_mem_nil, or_false] at hb
    rcases hb with rfl | rfl
    · show s + 3 < s + 4
      omega
    · show s + 3 < s + 5
      omega
  · intro b hb
    simp only [List.mem_cons, List.not_mem_nil, or_false] at hb
    rcases hb with rfl
    show s + 4 < s + 5
    omega
  · intro b hb
    simp at hb

theorem canonVarAssign_pairwise {A : Assignment} :
    ∀ (names : List String) (s : Nat),
      (canonVarAssign A names s).Pairwise (fun a b => a.1.node_id < b.1.node_id) := by
  intro names
  induction names with
  | nil => intro s; simp [canonVarAssign]
  | cons x rest ih =>
    intro s
    simp only [canonVarAssign, List.pairwise_cons]
    refine ⟨?_, ?_, ih (s + 2)⟩
    · intro b hb
      rcases List.mem_cons.mp hb with rfl | hb
      · show s < s + 1
        omega
      · have := canonVarAssign_id_bounds rest (s + 2) b hb
        show s < b.1.node_id
        omega
    · intro b hb
      have := canonVarAssign_id_bounds rest (s + 2) b hb
      show s + 1 < b.1.node_id
      omega

theorem canonClauseAssign_pairwise {A : Assignment} :
    ∀ (cls : Formula3) (s : Nat),
      (canonClauseAssign A cls s).Pairwise (fun a b => a.1.node_id < b.1.node_id) := by
  intro cls
  induction cls with
  | nil => intro s; simp [canonClauseAssign]
  | cons cl rest ih =>
    intro s
    rw [canonClauseAssign, List.pairwise_append]
    refine ⟨gadgetAssign6_pairwise, ih (s + 6), ?_⟩
    intro a ha b hb
    have hbb := canonClauseAssign_id_bounds rest (s + 6) b hb
    simp only [gadgetAssign6, List.mem_cons, List.not_mem_nil, or_false] at ha
    rcases ha with rfl | rfl | rfl | rfl | rfl | rfl
    · show s < b.1.node_id
      omega
    · show s + 1 < b.1.node_id
      omega
    · show s + 2 < b.1.node_id
      omega
    · show s + 3 < b.1.node_id
      omega
    · show s + 4 < b.1.node_id
      omega
    · show s + 5 < b.1.node_id
      omega

theorem canonColAssign_pairwise (phi : Formula3) (A : Assignment) :
    (canonColAssign phi A).Pairwise (fun a b => a.1.node_id < b.1.node_id) := by
  rw [canonColAssign, List.append_assoc, List.pairwise_append]
  refine ⟨?_, ?_, ?_⟩
  · simp [baseB, baseT, baseF, List.pairwise_cons]
  · rw [List.pairwise_append]
    refine ⟨canonVarAssign_pairwise _ _, canonClauseAssign_pairwise _ _, ?_⟩
    intro a ha b hb
    have h1 := canonVarAssign_id_bounds (varNames3 phi) 4 a ha
    have h2 := canonClauseAssign_id_bounds phi (4 + 2 * (varNames3 phi).length) b hb
    omega
  · intro a ha b hb
    have hid : a.1.node_id < 4 := by
      simp only [List.mem_cons, List.mem_singleton, List.not_mem_nil] at ha
      rcases ha with rfl | rfl | (rfl | h)
      · simp [baseB]
      · simp [baseT]
      · simp [baseF]
      · simp at h
    rcases List.mem_append.mp hb with hb | hb
    · have := canonVarAssign_id_bounds (varNames3 phi) 4 b hb
      omega
    · have := canonClauseAssign_id_bounds phi (4 + 2 * (varNames3 phi).length) b hb
      omega

theorem colAssign_fst_unique {phi : Formula3} {A : Assignment} {nd : Node}
    {c1 c2 : ColClass} (h1 : (nd, c1) ∈ canonColAssign phi A)
    (h2 : (nd, c2) ∈ canonColAssign phi A) : c1 = c2 := by
  by_contra hne
  have hpe : ((nd, c1) : Node × ColClass) ≠ (nd, c2) := by simp [hne]
  have hpw : (canonColAssign phi A).Pairwise (fun a b => a.1.node_id ≠ b.1.node_id) :=
    (canonColAssign_pairwise phi A).imp (fun h => by omega)
  have hsymm : Symmetric (fun a b : Node × ColClass => a.1.node_id ≠ b.1.node_id) :=
    fun a b h => h.symm
  exact (hpw.forall hsymm h1 h2 hpe) rfl

theorem mem_filterClass {l : List (Node × ColClass)} {c : ColClass} {nd : Node} :
    nd ∈ filterClass l c ↔ (nd, c) ∈ l := by
  simp only [filterClass, List.mem_map, List.mem_filter]
  constructor
  · rintro ⟨p, ⟨hp, hpc⟩, rfl⟩
    rw [beq_iff_eq] at hpc
    rw [← hpc]
    simpa using hp
  · intro h
    exact ⟨(nd, c), ⟨h, by simp⟩, rfl⟩

theorem canonVarAssign_fst {A : Assignment} :
    ∀ (names : List String) (s : Nat),
      (canonVarAssign A names s).map (fun p => p.1) = canonVarNodesFlat names s := by
  intro names
  induction names with
  | nil => intro s; rfl
  | cons x rest ih =>
    intro s
    simp only [canonVarAssign, canonVarNodesFlat, List.map_cons, ih]

theorem canonClauseAssign_fst {A : Assignment} :
    ∀ (cls : Formula3) (s : Nat),
      (canonClauseAssign A cls s).map (fun p => p.1) = canonGadgetNodes cls s := by
  intro cls
  induction cls with
  | nil => intro s; rfl
  | cons cl rest ih =>
    intro s
    simp only [canonClauseAssign, canonGadgetNodes, List.map_append, ih]
    rfl

theorem canonColAssign_fst (phi : Formula3) (A : Assignment) :
    (canonColAssign phi A).map (fun p => p.1) = (build_graph_3col phi).nodes := by
  rw [build_graph_3col_eq, canonColAssign]
  simp only [List.map_append, canonVarAssign_fst, canonClauseAssign_fst, List.map_cons,
    List.map_nil]

theorem mem_insertSorted {x y : String} {l : List String} :
    y ∈ insertSorted x l ↔ y = x ∨ y ∈ l := by
  induction l with
  | nil => simp [insertSorted]
  | cons a rest ih =>
    rw [insertSorted]
    by_cases h : strLt x a = true
    · rw [if_pos h]
      simp
    · rw [if_neg h]
      simp only [List.mem_cons, ih]
      tauto

theorem mem_sortStrings {y : String} {l : List String} :
    y ∈ sortStrings l ↔ y ∈ l := by
  induction l with
  | nil => simp [sortStrings]
  | cons a rest ih =>
    rw [sortStrings, mem_insertSorted, ih]
    simp

theorem varNames3_mem {phi : Formula3} {cl : Clause3} (hcl : cl ∈ phi) :
    cl.1.name ∈ varNames3 phi ∧ cl.2.1.name ∈ varNames3 phi ∧
      cl.2.2.name ∈ varNames3 phi := by
  rw [varNames3]
  refine ⟨?_, ?_, ?_⟩ <;>
    (rw [mem_sortStrings, List.mem_dedup, List.mem_flatMap]
     exact ⟨cl, hcl, by simp⟩)

theorem litNode_color (A : Assignment) (l : Literal) :
    ∀ (names : List String) (s : Nat), l.name ∈ names →
      (litNodeOf (canonVarNodes names s) l, colorOfBool (litSat A l)) ∈
        canonVarAssign A names s := by
  intro names
  induction names with
  | nil => intro s h; simp at h
  | cons x rest ih =>
    intro s hmem
    by_cases hx : x = l.name
    · subst hx
      simp only [litNodeOf, varNodesLookup, canonVarNodes, List.find?_cons,
        beq_self_eq_true, Option.map_some', Option.getD_some, canonVarAssign]
      cases hneg : l.is_negated
      · have hls : litSat A l = A l.name := by
          rw [litSat, hneg]
          cases A l.name <;> rfl
        simp only [hneg, Bool.false_eq_true, if_false, hls]
        exact List.mem_cons_self _ _
      · have hls : litSat A l = !A l.name := by
          rw [litSat, hneg]
          cases A l.name <;> rfl
        simp only [hneg, if_true, hls]
        exact List.mem_cons_of_mem _ (List.mem_cons_self _ _)
    · have hxl : (x == l.name) = false := by
        rw [beq_eq_false_iff_ne]
        exact hx
      have hmem' : l.name ∈ rest := by
        rcases List.mem_cons.mp hmem with h | h
        · exact absurd h.symm hx
        · exact h
      have := ih (s + 2) hmem'
      simp only [litNodeOf, varNodesLookup, canonVarNodes, List.find?_cons, hxl,
        canonVarAssign] at *
      exact List.mem_cons_of_mem _ (List.mem_cons_of_mem _ this)

/-- Per-row conflict-freeness of the table: the six gadget colors clash
neither with each other along the ten OR-gadget wires, nor with the two
literal-node colors, nor on the `out123`–base and `out123`–false edges. -/
abbrev GadgetRowOk (v : Bool × Bool × Bool) : Prop :=
  (orTable v).1.1 ≠ colorOfBool v.1 ∧
  (orTable v).1.2.1 ≠ colorOfBool v.2.1 ∧
  (orTable v).1.1 ≠ (orTable v).1.2.1 ∧
  (orTable v).1.2.1 ≠ (orTable v).1.2.2 ∧
  (orTable v).1.2.2 ≠ (orTable v).1.1 ∧
  (orTable v).2.1 ≠ (orTable v).1.2.2 ∧
  (orTable v).2.2.1 ≠ colorOfBool v.2.2 ∧
  (orTable v).2.1 ≠ (orTable v).2.2.1 ∧
  (orTable v).2.2.1 ≠ (orTable v).2.2.2 ∧
  (orTable v).2.2.2 ≠ (orTable v).2.1 ∧
  (orTable v).2.2.2 ≠ ColClass.Cbase ∧
  (orTable v).2.2.2 ≠ ColClass.Cfalse

theorem gadgetRowOk_of_sat :
    ∀ v : Bool × Bool × Bool, v ≠ (false, false, false) → GadgetRowOk v := by
  decide

end NPVis

namespace NPVis

/-! Aliasing model for `Graph.__init__`'s mutable default arguments
(`nodes=set(), edges=set()` in `npvis/element/graph/graph.py`): Python
evaluates a default parameter value once, at function definition time, so
every `Graph()` constructed without explicit arguments binds its `nodes`
and `edges` attributes to the same two set objects.  We model object
identity of those sets with addresses into a store. -/

/-- Address of the one `set()` object created for the `nodes` default. -/
def defaultNodesAddr : Nat := 0

/-- Address of the one `set()` object created for the `edges` default. -/
def defaultEdgesAddr : Nat := 1

/-- Store holding the contents of set objects by address. -/
structure PyStore where
  nodeSets : Nat → List Node
  edgeSets : Nat → List Edge

/-- Graph object: attributes `nodes` and `edges` are references. -/
structure GraphObj where
  nodesAddr : Nat
  edgesAddr : Nat
deriving DecidableEq, Repr

/-- Graph() with no arguments: both attributes alias the default sets. -/
def graphDefault : GraphObj := ⟨defaultNodesAddr, defaultEdgesAddr⟩

/-- Problem instance as built by `IndependentSetProblem.__init__` and
`ThreeColoringProblem.__init__`: `super().__init__(Graph())` plus a node
counter. -/
structure ProblemObj where
  element : GraphObj
  next_node_id : Nat
deriving DecidableEq, Repr

/-- IndependentSetProblem() (the ThreeColoringProblem constructor builds
the same shape: `Graph()` and `next_node_id = 1`). -/
def problemInit : ProblemObj := ⟨graphDefault, 1⟩

/-- Graph.add_node through the store: mutate the referenced node set. -/
def storeAddNode (s : PyStore) (g : GraphObj) (n : Node) : PyStore :=
  { s with nodeSets := fun a => if a = g.nodesAddr then s.nodeSets a ++ [n] else s.nodeSets a }

/-- IndependentSetProblem.add_node: construct `Node(next_node_id, name)`,
add it to `self.element`'s node set, bump the counter. -/
def problemAddNode (s : PyStore) (p : ProblemObj) (name : String) :
    PyStore × ProblemObj × Node :=
  let nd : Node := ⟨p.next_node_id, name⟩
  (storeAddNode s p.element nd, ⟨p.element, p.next_node_id + 1⟩, nd)

/-- Membership test `node in graph.nodes` through the store. -/
def storeMemNodes (s : PyStore) (g : GraphObj) (n : Node) : Prop :=
  n ∈ s.nodeSets g.nodesAddr

end NPVis

namespace NPVis

/-! Embedding of `ThreeSatToIndependentSetReduction`
(`npvis/reduction/three_sat_to_independent_set.py`).  The reduction object
carries `problem2`'s graph, the node-id counter of the
`IndependentSetProblem`, and the insertion-ordered dict
`input1_to_input2_pairs`.  A dict key is a literal *object*; object
identity is its occurrence position (clause index, literal index), and the
entry also records the literal's fields and the mapped node. -/

/-- Dictionary entry of `input1_to_input2_pairs`:
(occurrence position, literal fields, node). -/
abbrev PairEntry := (Nat × Nat) × Literal × Node

/-- Python dict assignment `d[key] = value`: replace in place when the key
exists (insertion order is preserved on update), else append. -/
def updatePairs (ps : List PairEntry) (key : Nat × Nat) (lit : Literal) (nd : Node) :
    List PairEntry :=
  if ps.any (fun e => e.1 == key) then
    ps.map (fun e => if e.1 == key then (key, lit, nd) else e)
  else ps ++ [(key, lit, nd)]

/-- Python dict lookup `d[key]`. -/
def pairsLookup (ps : List PairEntry) (key : Nat × Nat) : Option PairEntry :=
  ps.find? (fun e => e.1 == key)

/-- repr() of a literal (`Variable.__repr__`): optional negation sign,
an `x`, then the variable name. -/
def reprLit (l : Literal) : String :=
  (if l.is_negated then "¬x" else "x") ++ l.name

/-- State of a `ThreeSatToIndependentSetReduction` relevant to the engine:
the target problem's `next_node_id` and graph, and
`input1_to_input2_pairs`. -/
structure ISRed where
  next_node_id : Nat
  graph : Graph
  pairs : List PairEntry
deriving DecidableEq, Repr

/-- Freshly constructed reduction over an empty `IndependentSetProblem`. -/
def initISRed : ISRed := ⟨1, ⟨[], []⟩, []⟩

/-- Inner loop of step 1(a) of `build_graph_from_formula`: for each
literal of clause `j` (literal index `k` onward) create a node via
`IndependentSetProblem.add_node` and store the literal↦node pair; returns
the new state and the `clause_nodes` list. -/
def buildClauseNodes (st : ISRed) (j k : Nat) : List Literal → ISRed × List Node
  | [] => (st, [])
  | l :: rest =>
    let nd : Node := ⟨st.next_node_id, reprLit l⟩
    let st1 : ISRed := ⟨st.next_node_id + 1,
                        ⟨st.graph.nodes ++ [nd], st.graph.edges⟩,
                        updatePairs st.pairs (j, k) l nd⟩
    let p := buildClauseNodes st1 j (k + 1) rest
    (p.1, nd :: p.2)

/-- All ordered pairs (earlier, later) of a list, in the double-loop order
`for i: for j in range(i+1, ...)` used by the builder. -/
def allPairs {α : Type} : List α → List (α × α)
  | [] => []
  | a :: rest => rest.map (fun b => (a, b)) ++ allPairs rest

/-- Steps 1(a)+1(c) for one clause: create the clause's nodes, then fully
connect them (the intra-clause clique; groups are display-only and not
modelled). -/
def buildClause (st : ISRed) (j : Nat) (c : Clause) : ISRed :=
  let p := buildClauseNodes st j 0 c
  ⟨p.1.next_node_id,
   ⟨p.1.graph.nodes, p.1.graph.edges ++ (allPairs p.2).map (fun q => ⟨q.1, q.2⟩)⟩,
   p.1.pairs⟩

/-- The clause loop of `build_graph_from_formula`, clause index `j`
onward. -/
def buildClauses (st : ISRed) (j : Nat) : List Clause → ISRed
  | [] => st
  | c :: rest => buildClauses (buildClause st j c) (j + 1) rest

/-- Complementarity test of step 2: same variable name, opposite
polarity. -/
def complementary (a b : Literal) : Bool :=
  a.name == b.name && a.is_negated != b.is_negated

/-- Step 2 of `build_graph_from_formula`: for every pair `(i, j)` with
`i < j` over `items = list(input1_to_input2_pairs.items())`, connect the
two nodes when the literals are complementary. -/
def interEdges (items : List PairEntry) : List Edge :=
  (allPairs items).filterMap fun q =>
    if complementary q.1.2.1 q.2.2.1 then some ⟨q.1.2.2, q.2.2.2⟩ else none

/-- ThreeSatToIndependentSetReduction.build_graph_from_formula. -/
def build_graph_from_formula (phi : Formula) (st : ISRed) : ISRed :=
  let st1 := buildClauses st 0 phi
  ⟨st1.next_node_id,
   ⟨st1.graph.nodes, st1.graph.edges ++ interEdges st1.pairs⟩,
   st1.pairs⟩

/-- The built reduction state for a formula, starting from a fresh
reduction instance. -/
def builtIS (phi : Formula) : ISRed := build_graph_from_formula phi initISRed

/-- Index of the first satisfied literal of a clause (the scan with
`break` in `solution1_to_solution2`), if any. -/
def firstSatIdx (A : Assignment) : List Literal → Option Nat
  | [] => none
  | l :: rest => if litSat A l then some 0 else (firstSatIdx A rest).map (· + 1)

/-- Clause loop of `solution1_to_solution2`, clause index `j` onward: per
clause pick the node of the first satisfied literal
(`input1_to_input2_pairs[literal]`); a clause with no satisfied literal
contributes nothing.  The chosen nodes are pairwise distinct objects, so
the returned Python set is this list. -/
def sol1Choose (st : ISRed) (A : Assignment) (j : Nat) : List Clause → List Node
  | [] => []
  | c :: rest =>
    match (firstSatIdx A c).bind
        (fun k => (pairsLookup st.pairs (j, k)).map (fun e => e.2.2)) with
    | some nd => nd :: sol1Choose st A (j + 1) rest
    | none => sol1Choose st A (j + 1) rest

/-- ThreeSatToIndependentSetReduction.solution1_to_solution2. -/
def solution1_to_solution2 (phi : Formula) (st : ISRed) (A : Assignment) : List Node :=
  sol1Choose st A 0 phi

/-- Step 4(a) of `solution2_to_solution1`: iterate
`input1_to_input2_pairs.items()` in insertion order; for each pair whose
node is a member of the independent set, `setdefault` the variable to
`not is_negated`. -/
def recoverFold (S : List Node) : List PairEntry → Dict → Dict
  | [], d => d
  | e :: rest, d =>
    recoverFold S rest
      (if decide (e.2.2 ∈ S) then setdefault d e.2.1.name (!e.2.1.is_negated) else d)

/-- All variable names of the formula.  The source iterates
`sorted(all_vars)`; since every appended entry carries the same value
`False` and keys are distinct, the resulting dict's lookups do not depend
on that order, so sorting is not modelled. -/
def allVarsOf (phi : Formula) : List String :=
  (phi.flatMap (fun c => c.map (fun l => l.name))).dedup

/-- ThreeSatToIndependentSetReduction.solution2_to_solution1: selected
nodes fix their variables first-come-first-served, then every remaining
variable defaults to False. -/
def solution2_to_solution1 (phi : Formula) (st : ISRed) (S : List Node) : Dict :=
  let base := recoverFold S st.pairs []
  base ++ ((allVarsOf phi).filter (fun v => !(base.any (fun p => p.1 == v)))).map
    (fun v => (v, false))

/-- Second component of `ThreeSatToIndependentSetReduction.test_solution`:
the chosen set — a set of `Node` objects — handed to
`IndependentSetProblem.evaluate`. -/
def test_solution_snd (phi : Formula) (A : Assignment) : Bool :=
  evaluateIS (builtIS phi).graph
    ((solution1_to_solution2 phi (builtIS phi) A).map PyVal.node)

/-! Canonical closed forms of the built state.  `build_graph_from_formula`
starting from a fresh instance allocates node ids consecutively from 1 in
clause-major order; the closed forms below are proved equal to the build
and carry the id arithmetic. -/

/-- Total number of literal occurrences. -/
def totalLits : List Clause → Nat
  | [] => 0
  | c :: rest => c.length + totalLits rest

/-- Sum of the lengths of the first `jd` clauses: the node-id offset of
clause `jd`'s block. -/
def offsetTo : List Clause → Nat → Nat
  | _, 0 => 0
  | [], _ + 1 => 0
  | c :: rest, jd + 1 => c.length + offsetTo rest jd

/-- Dict entries created for one clause: literal `k + i` of clause `j`
maps to node id `s + i`. -/
def clausePairs (j k s : Nat) : List Literal → List PairEntry
  | [] => []
  | l :: rest => ((j, k), l, ⟨s, reprLit l⟩) :: clausePairs j (k + 1) (s + 1) rest

/-- Dict entries created for a clause list starting at clause index `j`
and node id `s`. -/
def canonPairs (j s : Nat) : List Clause → List PairEntry
  | [] => []
  | c :: rest => clausePairs j 0 s c ++ canonPairs (j + 1) (s + c.length) rest

/-- Intra-clause clique edges for a clause list starting at clause index
`j` and node id `s`. -/
def canonTri (j s : Nat) : List Clause → List Edge
  | [] => []
  | c :: rest =>
    (allPairs ((clausePairs j 0 s c).map (fun e => e.2.2))).map (fun q => ⟨q.1, q.2⟩) ++
      canonTri (j + 1) (s + c.length) rest

theorem clausePairs_mem {e : PairEntry} {lits : List Literal} {j k s : Nat} :
    e ∈ clausePairs j k s lits ↔
      ∃ kd l, lits[kd]? = some l ∧ e = ((j, k + kd), l, ⟨s + kd, reprLit l⟩) := by
  induction lits generalizing k s with
  | nil => simp [clausePairs]
  | cons a rest ih =>
    simp only [clausePairs, List.mem_cons, ih]
    constructor
    · rintro (rfl | ⟨kd, l, hg, rfl⟩)
      · exact ⟨0, a, by simp⟩
      · refine ⟨kd + 1, l, by simpa using hg, ?_⟩
        have h1 : k + 1 + kd = k + (kd + 1) := by omega
        have h2 : s + 1 + kd = s + (kd + 1) := by omega
        rw [h1, h2]
    · rintro ⟨kd, l, hg, rfl⟩
      match kd, hg with
      | 0, hg =>
        left
        simp only [List.getElem?_cons_zero, Option.some.injEq] at hg
        simp [← hg]
      | kd + 1, hg =>
        right
        refine ⟨kd, l, by simpa using hg, ?_⟩
        have h1 : k + 1 + kd = k + (kd + 1) := by omega
        have h2 : s + 1 + kd = s + (kd + 1) := by omega
        rw [h1, h2]

theorem canonPairs_mem {e : PairEntry} {cs : List Clause} {j s : Nat} :
    e ∈ canonPairs j s cs ↔
      ∃ (jd kd : Nat) (cl : Clause) (l : Literal), cs[jd]? = some cl ∧ cl[kd]? = some l ∧
        e = ((j + jd, kd), l, ⟨s + offsetTo cs jd + kd, reprLit l⟩) := by
  induction cs generalizing j s with
  | nil => simp [canonPairs]
  | cons c0 rest ih =>
    simp only [canonPairs, List.mem_append, clausePairs_mem, ih]
    constructor
    · rintro (⟨kd, l, hg, rfl⟩ | ⟨jd, kd, cl, l, hc, hg, rfl⟩)
      · exact ⟨0, kd, c0, l, by simp, hg, by simp [offsetTo]⟩
      · refine ⟨jd + 1, kd, cl, l, by simpa using hc, hg, ?_⟩
        have h1 : j + 1 + jd = j + (jd + 1) := by omega
        have h2 : s + c0.length + offsetTo rest jd =
            s + offsetTo (c0 :: rest) (jd + 1) := by
          simp only [offsetTo]; omega
        rw [h1, h2]
    · rintro ⟨jd, kd, cl, l, hc, hg, rfl⟩
      match jd, hc with
      | 0, hc =>
        left
        simp only [List.getElem?_cons_zero, Option.some.injEq] at hc
        subst hc
        exact ⟨kd, l, hg, by simp [offsetTo]⟩
      | jd + 1, hc =>
        right
        refine ⟨jd, kd, cl, l, by simpa using hc, hg, ?_⟩
        have h1 : j + 1 + jd = j + (jd + 1) := by omega
        have h2 : s + c0.length + offsetTo rest jd =
            s + offsetTo (c0 :: rest) (jd + 1) := by
          simp only [offsetTo]; omega
        rw [h1, h2]

theorem offsetTo_add_length_le {cs : List Clause} {jd : Nat} {c : Clause}
    (hc : cs[jd]? = some c) : offsetTo cs jd + c.length ≤ totalLits cs := by
  induction cs generalizing jd with
  | nil => simp at hc
  | cons c0 rest ih =>
    match jd, hc with
    | 0, hc =>
      simp only [List.getElem?_cons_zero, Option.some.injEq] at hc
      subst hc
      simp [offsetTo, totalLits]
    | jd + 1, hc =>
      have := ih (by simpa using hc)
      simp only [offsetTo, totalLits]
      omega

theorem flatIdx_inj {cs : List Clause} {jd1 kd1 jd2 kd2 : Nat} {c1 c2 : Clause}
    (hc1 : cs[jd1]? = some c1) (hk1 : kd1 < c1.length)
    (hc2 : cs[jd2]? = some c2) (hk2 : kd2 < c2.length)
    (heq : offsetTo cs jd1 + kd1 = offsetTo cs jd2 + kd2) :
    jd1 = jd2 ∧ kd1 = kd2 := by
  induction cs generalizing jd1 jd2 with
  | nil => simp at hc1
  | cons c0 rest ih =>
    match jd1, jd2, hc1, hc2 with
    | 0, 0, hc1, hc2 =>
      simp only [offsetTo] at heq
      omega
    | 0, jd2 + 1, hc1, hc2 =>
      simp only [List.getElem?_cons_zero, Option.some.injEq] at hc1
      subst hc1
      simp only [offsetTo] at heq
      omega
    | jd1 + 1, 0, hc1, hc2 =>
      simp only [List.getElem?_cons_zero, Option.some.injEq] at hc2
      subst hc2
      simp only [offsetTo] at heq
      omega
    | jd1 + 1, jd2 + 1, hc1, hc2 =>
      have heq' : offsetTo rest jd1 + kd1 = offsetTo rest jd2 + kd2 := by
        simp only [offsetTo] at heq
        omega
      have := ih (by simpa using hc1) (by simpa using hc2) heq'
      omega

theorem canonPairs_inj_node {e1 e2 : PairEntry} {cs : List Clause} {j s : Nat}
    (h1 : e1 ∈ canonPairs j s cs) (h2 : e2 ∈ canonPairs j s cs)
    (hid : e1.2.2.node_id = e2.2.2.node_id) : e1 = e2 := by
  obtain ⟨jd1, kd1, c1, l1, hc1, hg1, rfl⟩ := canonPairs_mem.mp h1
  obtain ⟨jd2, kd2, c2, l2, hc2, hg2, rfl⟩ := canonPairs_mem.mp h2
  simp only at hid
  obtain ⟨hj, hk⟩ := flatIdx_inj hc1 (List.getElem?_eq_some.mp hg1).1
    hc2 (List.getElem?_eq_some.mp hg2).1 (by omega)
  subst hj; subst hk
  rw [hc1] at hc2
  injection hc2 with hc2
  subst hc2
  rw [hg1] at hg2
  injection hg2 with hg2
  subst hg2
  rfl

theorem pairsLookup_clausePairs {lits : List Literal} {j k s kd : Nat} {l : Literal}
    (hg : lits[kd]? = some l) :
    pairsLookup (clausePairs j k s lits) (j, k + kd) =
      some ((j, k + kd), l, ⟨s + kd, reprLit l⟩) := by
  induction lits generalizing k s kd with
  | nil => simp at hg
  | cons a rest ih =>
    match kd, hg with
    | 0, hg =>
      simp only [List.getElem?_cons_zero, Option.some.injEq] at hg
      subst hg
      simp [pairsLookup, clausePairs, List.find?_cons]
    | kd + 1, hg =>
      have hne : ¬(((j, k), a, (⟨s, reprLit a⟩ : Node)).1 == (j, k + (kd + 1))) = true := by
        simp only [beq_iff_eq, Prod.mk.injEq]
        omega
      simp only [pairsLookup, clausePairs, List.find?_cons] at *
      rw [Bool.eq_false_iff.mpr hne]
      have h1 : k + 1 + kd = k + (kd + 1) := by omega
      have h2 : s + 1 + kd = s + (kd + 1) := by omega
      have := @ih (k + 1) (s + 1) kd (by simpa using hg)
      rw [h1, h2] at this
      exact this

theorem pairsLookup_canonPairs {cs : List Clause} {j s jd kd : Nat} {cl : Clause}
    {l : Literal} (hc : cs[jd]? = some cl) (hg : cl[kd]? = some l) :
    pairsLookup (canonPairs j s cs) (j + jd, kd) =
      some ((j + jd, kd), l, ⟨s + offsetTo cs jd + kd, reprLit l⟩) := by
  induction cs generalizing j s jd with
  | nil => simp at hc
  | cons c0 rest ih =>
    simp only [canonPairs, pairsLookup, List.find?_append]
    match jd, hc with
    | 0, hc =>
      simp only [List.getElem?_cons_zero, Option.some.injEq] at hc
      subst hc
      have := @pairsLookup_clausePairs c0 j 0 s kd l hg
      simp only [pairsLookup, Nat.zero_add] at this
      rw [show j + 0 = j by omega, show s + offsetTo (c0 :: rest) 0 + kd = s + kd by
        simp [offsetTo]]
      rw [this]
      rfl
    | jd + 1, hc =>
      have hnone : List.find? (fun e => e.1 == (j + (jd + 1), kd))
          (clausePairs j 0 s c0) = none := by
        rw [List.find?_eq_none]
        intro e he
        obtain ⟨kd', l', _, rfl⟩ := clausePairs_mem.mp he
        simp only [beq_iff_eq, Prod.mk.injEq]
        omega
      rw [hnone]
      have := @ih (j + 1) (s + c0.length) jd (by simpa using hc)
      simp only [pairsLookup] at this
      have h1 : j + 1 + jd = j + (jd + 1) := by omega
      have h2 : s + c0.length + offsetTo rest jd =
          s + offsetTo (c0 :: rest) (jd + 1) := by
        simp only [offsetTo]; omega
      rw [h1, h2] at this
      rw [this]
      rfl

theorem buildClauseNodes_spec (lits : List Literal) (st : ISRed) (j k : Nat)
    (hkeys : ∀ e ∈ st.pairs, e.1.1 ≠ j ∨ e.1.2 < k) :
    buildClauseNodes st j k lits =
      (⟨st.next_node_id + lits.length,
        ⟨st.graph.nodes ++ (clausePairs j k st.next_node_id lits).map (fun e => e.2.2),
         st.graph.edges⟩,
        st.pairs ++ clausePairs j k st.next_node_id lits⟩,
       (clausePairs j k st.next_node_id lits).map (fun e => e.2.2)) := by
  induction lits generalizing st k with
  | nil => simp [buildClauseNodes, clausePairs]
  | cons a rest ih =>
    have hnew : st.pairs.any (fun e => e.1 == (j, k)) = false := by
      rw [Bool.eq_false_iff]
      intro hany
      obtain ⟨e, he, hke⟩ := List.any_eq_true.mp hany
      rw [beq_iff_eq] at hke
      rcases hkeys e he with hne | hlt
      · exact hne (by rw [hke])
      · rw [hke] at hlt
        omega
    simp only [buildClauseNodes, updatePairs, hnew, Bool.false_eq_true, if_false]
    set nd : Node := ⟨st.next_node_id, reprLit a⟩ with hnd
    set st1 : ISRed := ⟨st.next_node_id + 1,
      ⟨st.graph.nodes ++ [nd], st.graph.edges⟩,
      st.pairs ++ [((j, k), a, nd)]⟩ with hst1
    have hkeys1 : ∀ e ∈ st1.pairs, e.1.1 ≠ j ∨ e.1.2 < k + 1 := by
      intro e he
      rw [hst1] at he
      rcases List.mem_append.mp he with hold | hnew2
      · rcases hkeys e hold with h | h
        · exact Or.inl h
        · exact Or.inr (by omega)
      · simp only [List.mem_singleton] at hnew2
        subst hnew2
        exact Or.inr (Nat.lt_succ_self k)
    rw [ih st1 (k + 1) hkeys1]
    simp only [hst1, hnd, clausePairs, List.map_cons, List.length_cons,
      List.append_assoc, List.cons_append, List.singleton_append, List.nil_append,
      Prod.mk.injEq, ISRed.mk.injEq, Graph.mk.injEq, and_true, true_and]
    omega

theorem buildClause_spec (cl : Clause) (st : ISRed) (j : Nat)
    (hkeys : ∀ e ∈ st.pairs, e.1.1 ≠ j) :
    buildClause st j cl =
      ⟨st.next_node_id + cl.length,
       ⟨st.graph.nodes ++ (clausePairs j 0 st.next_node_id cl).map (fun e => e.2.2),
        st.graph.edges ++
          (allPairs ((clausePairs j 0 st.next_node_id cl).map (fun e => e.2.2))).map
            (fun q => ⟨q.1, q.2⟩)⟩,
       st.pairs ++ clausePairs j 0 st.next_node_id cl⟩ := by
  unfold buildClause
  rw [buildClauseNodes_spec cl st j 0 (fun e he => Or.inl (hkeys e he))]

theorem buildClauses_spec (cs : List Clause) (st : ISRed) (j : Nat)
    (hkeys : ∀ e ∈ st.pairs, e.1.1 < j) :
    buildClauses st j cs =
      ⟨st.next_node_id + totalLits cs,
       ⟨st.graph.nodes ++ (canonPairs j st.next_node_id cs).map (fun e => e.2.2),
        st.graph.edges ++ canonTri j st.next_node_id cs⟩,
       st.pairs ++ canonPairs j st.next_node_id cs⟩ := by
  induction cs generalizing st j with
  | nil => simp [buildClauses, canonPairs, canonTri, totalLits]
  | cons c0 rest ih =>
    simp only [buildClauses]
    rw [buildClause_spec c0 st j (fun e he => Nat.ne_of_lt (hkeys e he))]
    set st1 : ISRed := ⟨st.next_node_id + c0.length,
      ⟨st.graph.nodes ++ (clausePairs j 0 st.next_node_id c0).map (fun e => e.2.2),
       st.graph.edges ++
         (allPairs ((clausePairs j 0 st.next_node_id c0).map (fun e => e.2.2))).map
           (fun q => ⟨q.1, q.2⟩)⟩,
      st.pairs ++ clausePairs j 0 st.next_node_id c0⟩ with hst1
    have hkeys1 : ∀ e ∈ st1.pairs, e.1.1 < j + 1 := by
      intro e he
      rw [hst1] at he
      rcases List.mem_append.mp he with hold | hnew
      · exact Nat.lt_succ_of_lt (hkeys e hold)
      · obtain ⟨kd, l, _, rfl⟩ := clausePairs_mem.mp hnew
        exact Nat.lt_succ_self j
    rw [ih st1 (j + 1) hkeys1]
    simp only [hst1, canonPairs, canonTri, totalLits, List.map_append,
      List.append_assoc, List.nil_append, Prod.mk.injEq, ISRed.mk.injEq,
      Graph.mk.injEq, and_true, true_and]
    omega

theorem builtIS_eq (phi : Formula) :
    builtIS phi = ⟨1 + totalLits phi,
      ⟨(canonPairs 0 1 phi).map (fun e => e.2.2),
       canonTri 0 1 phi ++ interEdges (canonPairs 0 1 phi)⟩,
      canonPairs 0 1 phi⟩ := by
  unfold builtIS build_graph_from_formula
  rw [buildClauses_spec phi initISRed 0 (by simp [initISRed])]
  simp [initISRed]

theorem allPairs_mem_iff {α : Type} {l : List α} {p : α × α} :
    p ∈ allPairs l ↔ ∃ i j : Nat, i < j ∧ l[i]? = some p.1 ∧ l[j]? = some p.2 := by
  induction l with
  | nil => simp [allPairs]
  | cons a rest ih =>
    simp only [allPairs, List.mem_append, List.mem_map, ih]
    constructor
    · rintro (⟨b, hb, rfl⟩ | ⟨i, j, hij, h1, h2⟩)
      · obtain ⟨n, hn⟩ := List.mem_iff_getElem?.mp hb
        exact ⟨0, n + 1, by omega, by simp, by simpa using hn⟩
      · exact ⟨i + 1, j + 1, by omega, by simpa using h1, by simpa using h2⟩
    · rintro ⟨i, j, hij, h1, h2⟩
      match i, j, hij with
      | 0, j + 1, _ =>
        left
        simp only [List.getElem?_cons_zero, Option.some.injEq] at h1
        simp only [List.getElem?_cons_succ] at h2
        exact ⟨p.2, List.mem_iff_getElem?.mpr ⟨j, h2⟩, by rw [h1]⟩
      | i + 1, j + 1, hij =>
        right
        exact ⟨i, j, by omega, by simpa using h1, by simpa using h2⟩

theorem allPairs_mem_both {α : Type} {l : List α} {p : α × α} (h : p ∈ allPairs l) :
    p.1 ∈ l ∧ p.2 ∈ l := by
  obtain ⟨i, j, _, h1, h2⟩ := allPairs_mem_iff.mp h
  exact ⟨List.mem_iff_getElem?.mpr ⟨i, h1⟩, List.mem_iff_getElem?.mpr ⟨j, h2⟩⟩

theorem allPairs_of_mem_ne {α : Type} {l : List α} {a b : α}
    (ha : a ∈ l) (hb : b ∈ l) (hne : a ≠ b) :
    (a, b) ∈ allPairs l ∨ (b, a) ∈ allPairs l := by
  obtain ⟨i, hi⟩ := List.mem_iff_getElem?.mp ha
  obtain ⟨j, hj⟩ := List.mem_iff_getElem?.mp hb
  have hij : i ≠ j := by
    intro h
    rw [h, hj] at hi
    exact hne (Option.some.inj hi).symm
  rcases Nat.lt_or_ge i j with h | h
  · exact Or.inl (allPairs_mem_iff.mpr ⟨i, j, h, hi, hj⟩)
  · exact Or.inr (allPairs_mem_iff.mpr ⟨j, i, by omega, hj, hi⟩)

theorem interEdges_mem {items : List PairEntry} {e : Edge} :
    e ∈ interEdges items ↔
      ∃ a b : PairEntry, (a, b) ∈ allPairs items ∧
        complementary a.2.1 b.2.1 = true ∧ e = ⟨a.2.2, b.2.2⟩ := by
  simp only [interEdges, List.mem_filterMap]
  constructor
  · rintro ⟨⟨a, b⟩, hmem, hif⟩
    by_cases hc : complementary a.2.1 b.2.1 = true
    · rw [if_pos hc] at hif
      exact ⟨a, b, hmem, hc, by injection hif with h; rw [h]⟩
    · rw [if_neg hc] at hif
      exact absurd hif (by simp)
  · rintro ⟨a, b, hmem, hc, rfl⟩
    exact ⟨(a, b), hmem, by rw [if_pos hc]⟩

theorem clausePairs_getElem {lits : List Literal} {j k s i : Nat} :
    (clausePairs j k s lits)[i]? =
      (lits[i]?).map (fun l => ((j, k + i), l, (⟨s + i, reprLit l⟩ : Node))) := by
  induction lits generalizing k s i with
  | nil => simp [clausePairs]
  | cons a rest ih =>
    match i with
    | 0 => simp [clausePairs]
    | i + 1 =>
      simp only [clausePairs, List.getElem?_cons_succ, ih]
      have h1 : k + 1 + i = k + (i + 1) := by omega
      have h2 : s + 1 + i = s + (i + 1) := by omega
      rw [h1, h2]

theorem canonTri_mem {cs : List Clause} {j s : Nat} {e : Edge} :
    e ∈ canonTri j s cs ↔
      ∃ (jd kd1 kd2 : Nat) (cl : Clause) (l1 l2 : Literal),
        cs[jd]? = some cl ∧ kd1 < kd2 ∧ cl[kd1]? = some l1 ∧ cl[kd2]? = some l2 ∧
        e = ⟨⟨s + offsetTo cs jd + kd1, reprLit l1⟩,
             ⟨s + offsetTo cs jd + kd2, reprLit l2⟩⟩ := by
  induction cs generalizing j s with
  | nil => simp [canonTri]
  | cons c0 rest ih =>
    simp only [canonTri, List.mem_append, List.mem_map, ih]
    constructor
    · rintro (⟨q, hq, rfl⟩ | ⟨jd, kd1, kd2, cl, l1, l2, hc, hlt, h1, h2, rfl⟩)
      · obtain ⟨i1, i2, hlt, hg1, hg2⟩ := allPairs_mem_iff.mp hq
        rw [List.getElem?_map, clausePairs_getElem] at hg1 hg2
        match hl1 : c0[i1]?, hl2 : c0[i2]? with
        | some l1, some l2 =>
          rw [hl1] at hg1
          rw [hl2] at hg2
          simp only [Option.map_some', Option.some.injEq] at hg1 hg2
          refine ⟨0, i1, i2, c0, l1, l2, by simp, hlt, hl1, hl2, ?_⟩
          rw [← hg1, ← hg2]
          simp [offsetTo]
        | some _, none => rw [hl2] at hg2; simp at hg2
        | none, _ => rw [hl1] at hg1; simp at hg1
      · refine ⟨jd + 1, kd1, kd2, cl, l1, l2, by simpa using hc, hlt, h1, h2, ?_⟩
        have harith : ∀ kd : Nat, s + c0.length + offsetTo rest jd + kd =
            s + offsetTo (c0 :: rest) (jd + 1) + kd := by
          intro kd
          simp only [offsetTo]
          omega
        rw [harith kd1, harith kd2]
    · rintro ⟨jd, kd1, kd2, cl, l1, l2, hc, hlt, h1, h2, rfl⟩
      match jd, hc with
      | 0, hc =>
        left
        simp only [List.getElem?_cons_zero, Option.some.injEq] at hc
        subst hc
        refine ⟨(⟨s + kd1, reprLit l1⟩, ⟨s + kd2, reprLit l2⟩), ?_, by simp [offsetTo]⟩
        refine allPairs_mem_iff.mpr ⟨kd1, kd2, hlt, ?_, ?_⟩
        · rw [List.getElem?_map, clausePairs_getElem, h1]
          rfl
        · rw [List.getElem?_map, clausePairs_getElem, h2]
          rfl
      | jd + 1, hc =>
        right
        refine ⟨jd, kd1, kd2, cl, l1, l2, by simpa using hc, hlt, h1, h2, ?_⟩
        have harith : ∀ kd : Nat, s + c0.length + offsetTo rest jd + kd =
            s + offsetTo (c0 :: rest) (jd + 1) + kd := by
          intro kd
          simp only [offsetTo]
          omega
        rw [harith kd1, harith kd2]

theorem bool_bne_iff : ∀ x y : Bool, (x != y) = true ↔ x = !y := by decide

theorem evaluate3Sat_characterization (phi : Formula) (a : Dict) :
    evaluate3Sat phi a = true ↔
      ∀ c ∈ phi, ∃ l ∈ c, dictGet a l.name false = !l.is_negated := by
  simp only [evaluate3Sat, List.all_eq_true, evaluate_clause, List.any_eq_true]
  exact ⟨fun h c hc => (h c hc).imp (fun l ⟨hl, he⟩ => ⟨hl, (bool_bne_iff _ _).mp he⟩),
         fun h c hc => (h c hc).imp (fun l ⟨hl, he⟩ => ⟨hl, (bool_bne_iff _ _).mpr he⟩)⟩

theorem firstSatIdx_spec {A : Assignment} {cl : Clause} {k : Nat}
    (h : firstSatIdx A cl = some k) :
    ∃ l : Literal, cl[k]? = some l ∧ litSat A l = true ∧
      ∀ k' < k, ∃ l' : Literal, cl[k']? = some l' ∧ litSat A l' = false := by
  induction cl generalizing k with
  | nil => simp [firstSatIdx] at h
  | cons a rest ih =>
    by_cases hs : litSat A a = true
    · rw [firstSatIdx, if_pos hs] at h
      injection h with h
      subst h
      exact ⟨a, by simp, hs, by omega⟩
    · rw [firstSatIdx, if_neg hs] at h
      match hr : firstSatIdx A rest with
      | none => rw [hr] at h; simp at h
      | some k0 =>
        rw [hr] at h
        simp only [Option.map_some', Option.some.injEq] at h
        subst h
        obtain ⟨l, hl, hsat, hfirst⟩ := ih hr
        refine ⟨l, by simpa using hl, hsat, ?_⟩
        intro k' hk'
        match k' with
        | 0 => exact ⟨a, by simp, Bool.not_eq_true _ ▸ (by simpa using hs)⟩
        | k' + 1 =>
          obtain ⟨l', hl', hns⟩ := hfirst k' (by omega)
          exact ⟨l', by simpa using hl', hns⟩

theorem firstSatIdx_isSome {A : Assignment} {c : Clause}
    (h : ∃ l ∈ c, litSat A l = true) : ∃ k : Nat, firstSatIdx A c = some k := by
  induction c with
  | nil => simp at h
  | cons a rest ih =>
    by_cases hs : litSat A a = true
    · exact ⟨0, by rw [firstSatIdx, if_pos hs]⟩
    · obtain ⟨l, hl, hsat⟩ := h
      rcases List.mem_cons.mp hl with rfl | hl'
      · exact absurd hsat hs
      · obtain ⟨k, hk⟩ := ih ⟨l, hl', hsat⟩
        exact ⟨k + 1, by rw [firstSatIdx, if_neg hs, hk]; rfl⟩

theorem firstSatIdx_none {A : Assignment} {c : Clause} :
    firstSatIdx A c = none ↔ ∀ l ∈ c, litSat A l = false := by
  induction c with
  | nil => simp [firstSatIdx]
  | cons a rest ih =>
    by_cases hs : litSat A a = true
    · simp [firstSatIdx, hs]
    · simp only [firstSatIdx, if_neg hs, Option.map_eq_none', ih, List.mem_cons]
      constructor
      · intro h l hl
        rcases hl with rfl | hl'
        · exact Bool.not_eq_true _ ▸ (by simpa using hs)
        · exact h l hl'
      · intro h l hl
        exact h l (Or.inr hl)

theorem offsetTo_succ_eq {cs : List Clause} {j : Nat} {cl : Clause}
    (hc : cs[j]? = some cl) : offsetTo cs (j + 1) = offsetTo cs j + cl.length := by
  induction cs generalizing j with
  | nil => simp at hc
  | cons c0 rest ih =>
    match j, hc with
    | 0, hc =>
      simp only [List.getElem?_cons_zero, Option.some.injEq] at hc
      subst hc
      simp [offsetTo]
    | j + 1, hc =>
      have := ih (by simpa using hc)
      simp only [offsetTo]
      omega

theorem offsetTo_mono {cs : List Clause} {j1 j2 : Nat} (h : j1 ≤ j2) :
    offsetTo cs j1 ≤ offsetTo cs j2 := by
  induction cs generalizing j1 j2 with
  | nil =>
    match j1, j2 with
    | 0, 0 => exact Nat.le_refl _
    | 0, _ + 1 => simp [offsetTo]
    | _ + 1, 0 => omega
    | _ + 1, _ + 1 => simp [offsetTo]
  | cons c0 rest ih =>
    match j1, j2 with
    | 0, 0 => exact Nat.le_refl _
    | 0, j2 + 1 => simp [offsetTo]
    | j1 + 1, 0 => omega
    | j1 + 1, j2 + 1 =>
      simp only [offsetTo]
      exact Nat.add_le_add_left (ih (by omega)) _

theorem sol1Choose_mem {phi : Formula} {A : Assignment} {j : Nat} {cs : List Clause}
    (hcs : ∀ jd : Nat, cs[jd]? = phi[j + jd]?) {nd : Node} :
    nd ∈ sol1Choose (builtIS phi) A j cs ↔
      ∃ (jd k : Nat) (cl : Clause) (l : Literal), cs[jd]? = some cl ∧
        firstSatIdx A cl = some k ∧ cl[k]? = some l ∧
        nd = ⟨1 + offsetTo phi (j + jd) + k, reprLit l⟩ := by
  induction cs generalizing j with
  | nil => simp [sol1Choose]
  | cons c0 rest ih =>
    have hrest : ∀ jd : Nat, rest[jd]? = phi[(j + 1) + jd]? := by
      intro jd
      have := hcs (jd + 1)
      simpa [Nat.add_assoc, Nat.add_comm 1 jd] using this
    have hc0 : phi[j]? = some c0 := by
      have := hcs 0
      simpa using this.symm
    have hmatch : ((firstSatIdx A c0).bind
        (fun k => (pairsLookup (builtIS phi).pairs (j, k)).map (fun e => e.2.2))) =
        (firstSatIdx A c0).map
          (fun k => (⟨1 + offsetTo phi j + k,
            reprLit ((c0[k]?).getD ⟨"", false⟩)⟩ : Node)) := by
      match hf : firstSatIdx A c0 with
      | none => rfl
      | some k =>
        obtain ⟨l, hl, _, _⟩ := firstSatIdx_spec hf
        have hlook := @pairsLookup_canonPairs phi 0 1 j k c0 l hc0 hl
        rw [builtIS_eq]
        simp only [Nat.zero_add] at hlook
        simp only [Option.some_bind, hlook, Option.map_some', hl, Option.getD_some]
    constructor
    · intro hmem
      rw [sol1Choose] at hmem
      rw [hmatch] at hmem
      match hf : firstSatIdx A c0 with
      | some k =>
        rw [hf] at hmem
        simp only [Option.map_some'] at hmem
        rcases List.mem_cons.mp hmem with rfl | htail
        · obtain ⟨l, hl, _, _⟩ := firstSatIdx_spec hf
          exact ⟨0, k, c0, l, by simp, hf, hl, by rw [hl]; simp⟩
        · obtain ⟨jd, k', cl, l, h1, h2, h3, h4⟩ := (ih hrest).mp htail
          refine ⟨jd + 1, k', cl, l, by simpa using h1, h2, h3, ?_⟩
          rw [h4]
          have : j + 1 + jd = j + (jd + 1) := by omega
          rw [this]
      | none =>
        rw [hf] at hmem
        simp only [Option.map_none'] at hmem
        obtain ⟨jd, k', cl, l, h1, h2, h3, h4⟩ := (ih hrest).mp hmem
        refine ⟨jd + 1, k', cl, l, by simpa using h1, h2, h3, ?_⟩
        rw [h4]
        have : j + 1 + jd = j + (jd + 1) := by omega
        rw [this]
    · rintro ⟨jd, k, cl, l, h1, h2, h3, rfl⟩
      rw [sol1Choose, hmatch]
      match jd, h1 with
      | 0, h1 =>
        simp only [List.getElem?_cons_zero, Option.some.injEq] at h1
        subst h1
        rw [h2]
        simp only [Option.map_some']
        refine List.mem_cons.mpr (Or.inl ?_)
        rw [h3]
        simp
      | jd + 1, h1 =>
        have htail : (⟨1 + offsetTo phi (j + (jd + 1)) + k, reprLit l⟩ : Node) ∈
            sol1Choose (builtIS phi) A (j + 1) rest := by
          refine (ih hrest).mpr ⟨jd, k, cl, l, by simpa using h1, h2, h3, ?_⟩
          have : j + 1 + jd = j + (jd + 1) := by omega
          rw [this]
        match hf : firstSatIdx A c0 with
        | some k0 =>
          simp only [Option.map_some']
          exact List.mem_cons.mpr (Or.inr htail)
        | none =>
          simp only [Option.map_none']
          exact htail

theorem sol1_match_eq {phi : Formula} {A : Assignment} {j : Nat} {c0 : Clause}
    (hc0 : phi[j]? = some c0) :
    ((firstSatIdx A c0).bind
        (fun k => (pairsLookup (builtIS phi).pairs (j, k)).map (fun e => e.2.2))) =
      (firstSatIdx A c0).map
        (fun k => (⟨1 + offsetTo phi j + k,
          reprLit ((c0[k]?).getD ⟨"", false⟩)⟩ : Node)) := by
  match hf : firstSatIdx A c0 with
  | none => rfl
  | some k =>
    obtain ⟨l, hl, _, _⟩ := firstSatIdx_spec hf
    have hlook := @pairsLookup_canonPairs phi 0 1 j k c0 l hc0 hl
    rw [builtIS_eq]
    simp only [Nat.zero_add] at hlook
    simp only [Option.some_bind, hlook, Option.map_some', hl, Option.getD_some]

theorem satisfies_iff_litSat {phi : Formula} {A : Assignment} :
    Satisfies phi A ↔ ∀ cl ∈ phi, ∃ l ∈ cl, litSat A l = true := by
  constructor
  · intro h cl hcl
    obtain ⟨l, hl, he⟩ := h cl hcl
    exact ⟨l, hl, (bool_bne_iff _ _).mpr he⟩
  · intro h cl hcl
    obtain ⟨l, hl, he⟩ := h cl hcl
    exact ⟨l, hl, (bool_bne_iff _ _).mp he⟩

theorem sol1Choose_length {phi : Formula} {A : Assignment} {j : Nat} {cs : List Clause}
    (hcs : ∀ jd : Nat, cs[jd]? = phi[j + jd]?) :
    (sol1Choose (builtIS phi) A j cs).length =
      (cs.filter (fun cl => (firstSatIdx A cl).isSome)).length := by
  induction cs generalizing j with
  | nil => simp [sol1Choose]
  | cons c0 rest ih =>
    have hrest : ∀ jd : Nat, rest[jd]? = phi[(j + 1) + jd]? := by
      intro jd
      have := hcs (jd + 1)
      simpa [Nat.add_assoc, Nat.add_comm 1 jd] using this
    have hc0 : phi[j]? = some c0 := by
      have := hcs 0
      simpa using this.symm
    rw [sol1Choose, sol1_match_eq hc0]
    match hf : firstSatIdx A c0 with
    | some k =>
      simp only [Option.map_some', List.length_cons, List.filter_cons, hf,
        Option.isSome_some, if_true]
      rw [ih hrest]
    | none =>
      simp only [Option.map_none', List.filter_cons, hf, Option.isSome_none]
      rw [ih hrest]
      simp

theorem sol1Choose_id_lb {phi : Formula} {A : Assignment} {j : Nat} {cs : List Clause}
    (hcs : ∀ jd : Nat, cs[jd]? = phi[j + jd]?) :
    ∀ nd ∈ sol1Choose (builtIS phi) A j cs, 1 + offsetTo phi j ≤ nd.node_id := by
  intro nd hmem
  obtain ⟨jd, k, cl, l, _, _, _, rfl⟩ := (sol1Choose_mem hcs).mp hmem
  have := @offsetTo_mono phi j (j + jd) (Nat.le_add_right j jd)
  simp only
  omega

theorem sol1Choose_pairwise {phi : Formula} {A : Assignment} {j : Nat} {cs : List Clause}
    (hcs : ∀ jd : Nat, cs[jd]? = phi[j + jd]?) :
    (sol1Choose (builtIS phi) A j cs).Pairwise (fun u v => u.node_id < v.node_id) := by
  induction cs generalizing j with
  | nil => simp [sol1Choose]
  | cons c0 rest ih =>
    have hrest : ∀ jd : Nat, rest[jd]? = phi[(j + 1) + jd]? := by
      intro jd
      have := hcs (jd + 1)
      simpa [Nat.add_assoc, Nat.add_comm 1 jd] using this
    have hc0 : phi[j]? = some c0 := by
      have := hcs 0
      simpa using this.symm
    rw [sol1Choose, sol1_match_eq hc0]
    match hf : firstSatIdx A c0 with
    | some k =>
      simp only [Option.map_some']
      refine List.Pairwise.cons ?_ (ih hrest)
      intro v hv
      obtain ⟨l, hl, _, _⟩ := firstSatIdx_spec hf
      have hkbound : k < c0.length := (List.getElem?_eq_some.mp hl).1
      have hsucc : offsetTo phi (j + 1) = offsetTo phi j + c0.length :=
        offsetTo_succ_eq hc0
      have := sol1Choose_id_lb hrest v hv
      simp only
      omega
    | none =>
      simp only [Option.map_none']
      exact ih hrest

theorem sol1Choose_nodup {phi : Formula} {A : Assignment} {j : Nat} {cs : List Clause}
    (hcs : ∀ jd : Nat, cs[jd]? = phi[j + jd]?) :
    (sol1Choose (builtIS phi) A j cs).Nodup := by
  refine (sol1Choose_pairwise hcs).imp ?_
  intro a b hlt heq
  rw [heq] at hlt
  omega

theorem sol1Choose_getElem {phi : Formula} {A : Assignment} {j : Nat} {cs : List Clause}
    (hcs : ∀ jd : Nat, cs[jd]? = phi[j + jd]?)
    (hall : ∀ cl ∈ cs, ∃ k : Nat, firstSatIdx A cl = some k) :
    ∀ (jd : Nat) (cl : Clause), cs[jd]? = some cl →
      ∃ (k : Nat) (l : Literal), firstSatIdx A cl = some k ∧ cl[k]? = some l ∧
        (sol1Choose (builtIS phi) A j cs)[jd]? =
          some ⟨1 + offsetTo phi (j + jd) + k, reprLit l⟩ := by
  induction cs generalizing j with
  | nil => intro jd cl h; simp at h
  | cons c0 rest ih =>
    have hrest : ∀ jd : Nat, rest[jd]? = phi[(j + 1) + jd]? := by
      intro jd
      have := hcs (jd + 1)
      simpa [Nat.add_assoc, Nat.add_comm 1 jd] using this
    have hc0 : phi[j]? = some c0 := by
      have := hcs 0
      simpa using this.symm
    obtain ⟨k0, hk0⟩ := hall c0 (List.mem_cons_self _ _)
    intro jd cl hcl
    rw [sol1Choose, sol1_match_eq hc0, hk0]
    simp only [Option.map_some']
    match jd, hcl with
    | 0, hcl =>
      simp only [List.getElem?_cons_zero, Option.some.injEq] at hcl
      subst hcl
      obtain ⟨l, hl, _, _⟩ := firstSatIdx_spec hk0
      refine ⟨k0, l, hk0, hl, ?_⟩
      simp only [List.getElem?_cons_zero, Option.some.injEq, hl, Option.getD_some]
      have : j + 0 = j := by omega
      rw [this]
    | jd + 1, hcl =>
      obtain ⟨k, l, h1, h2, h3⟩ := ih hrest (fun cl h => hall cl (List.mem_cons_of_mem _ h))
        jd cl (by simpa using hcl)
      refine ⟨k, l, h1, h2, ?_⟩
      simp only [List.getElem?_cons_succ]
      rw [h3]
      have : j + 1 + jd = j + (jd + 1) := by omega
      rw [this]

theorem adjacent_of_edge_mem {g : Graph} {u v : Node} (h : (⟨u, v⟩ : Edge) ∈ g.edges) :
    adjacent g u v = true := by
  simp only [adjacent, hasEdge, List.any_eq_true]
  exact ⟨⟨u, v⟩, h, by simp⟩

theorem adjacent_swap_of_edge_mem {g : Graph} {u v : Node}
    (h : (⟨u, v⟩ : Edge) ∈ g.edges) : adjacent g v u = true := by
  simp only [adjacent, hasEdge, List.any_eq_true]
  exact ⟨⟨u, v⟩, h, by simp⟩

theorem sol1Choose_indep (phi : Formula) (A : Assignment) :
    IsIndepSet (builtIS phi).graph (sol1Choose (builtIS phi) A 0 phi) := by
  have hcs0 : ∀ jd : Nat, phi[jd]? = phi[0 + jd]? := by
    intro jd
    rw [Nat.zero_add]
  intro u hu v hv hne
  obtain ⟨J1, k1, c1, l1, hc1, hf1, hl1, hueq⟩ := (sol1Choose_mem hcs0).mp hu
  obtain ⟨J2, k2, c2, l2, hc2, hf2, hl2, hveq⟩ := (sol1Choose_mem hcs0).mp hv
  rw [Nat.zero_add] at hueq hveq
  have hsat1 : litSat A l1 = true := by
    obtain ⟨l, hl, hs, _⟩ := firstSatIdx_spec hf1
    rw [hl1] at hl
    injection hl with hl
    rw [hl]
    exact hs
  have hsat2 : litSat A l2 = true := by
    obtain ⟨l, hl, hs, _⟩ := firstSatIdx_spec hf2
    rw [hl2] at hl
    injection hl with hl
    rw [hl]
    exact hs
  have hkb1 : k1 < c1.length := (List.getElem?_eq_some.mp hl1).1
  have hkb2 : k2 < c2.length := (List.getElem?_eq_some.mp hl2).1
  rw [Bool.eq_false_iff]
  intro hadj
  simp only [adjacent, hasEdge, List.any_eq_true] at hadj
  obtain ⟨e, hemem, hp⟩ := hadj
  simp only [beq_iff_eq, Option.some.injEq, Bool.or_eq_true, Bool.and_eq_true] at hp
  rw [builtIS_eq] at hemem
  simp only [List.mem_append] at hemem
  have huid : u.node_id = 1 + offsetTo phi J1 + k1 := by rw [hueq]
  have hvid : v.node_id = 1 + offsetTo phi J2 + k2 := by rw [hveq]
  rcases hemem with htri | hinter
  · obtain ⟨jd, kd1, kd2, cl, ll1, ll2, hcd, hklt, hgl1, hgl2, rfl⟩ :=
      canonTri_mem.mp htri
    have hkd1 : kd1 < cl.length := (List.getElem?_eq_some.mp hgl1).1
    have hkd2 : kd2 < cl.length := (List.getElem?_eq_some.mp hgl2).1
    have hJeq : J1 = J2 := by
      rcases hp with ⟨h1, h2⟩ | ⟨h1, h2⟩
      · have e1 : u.node_id = 1 + offsetTo phi jd + kd1 := by rw [← h1]
        have e2 : v.node_id = 1 + offsetTo phi jd + kd2 := by rw [← h2]
        have i1 := flatIdx_inj hc1 hkb1 hcd hkd1 (by omega)
        have i2 := flatIdx_inj hc2 hkb2 hcd hkd2 (by omega)
        omega
      · have e1 : v.node_id = 1 + offsetTo phi jd + kd1 := by rw [← h1]
        have e2 : u.node_id = 1 + offsetTo phi jd + kd2 := by rw [← h2]
        have i1 := flatIdx_inj hc2 hkb2 hcd hkd1 (by omega)
        have i2 := flatIdx_inj hc1 hkb1 hcd hkd2 (by omega)
        omega
    subst hJeq
    rw [hc1] at hc2
    injection hc2 with hc2
    subst hc2
    rw [hf1] at hf2
    injection hf2 with hf2
    subst hf2
    rw [hl1] at hl2
    injection hl2 with hl2
    subst hl2
    exact hne (by rw [hueq, hveq])
  · obtain ⟨a, b, hab, hcomp, rfl⟩ := interEdges_mem.mp hinter
    obtain ⟨hamem, hbmem⟩ := allPairs_mem_both hab
    have heu : ((0 + J1, k1), l1,
        (⟨1 + offsetTo phi J1 + k1, reprLit l1⟩ : Node)) ∈ canonPairs 0 1 phi :=
      canonPairs_mem.mpr ⟨J1, k1, c1, l1, hc1, hl1, rfl⟩
    have hev : ((0 + J2, k2), l2,
        (⟨1 + offsetTo phi J2 + k2, reprLit l2⟩ : Node)) ∈ canonPairs 0 1 phi :=
      canonPairs_mem.mpr ⟨J2, k2, c2, l2, hc2, hl2, rfl⟩
    have hcompl : a.2.1.name = b.2.1.name ∧ a.2.1.is_negated ≠ b.2.1.is_negated := by
      simp only [complementary, Bool.and_eq_true, beq_iff_eq, bne_iff_ne] at hcomp
      exact hcomp
    rcases hp with ⟨h1, h2⟩ | ⟨h1, h2⟩
    · have ha : a = ((0 + J1, k1), l1, ⟨1 + offsetTo phi J1 + k1, reprLit l1⟩) := by
        refine canonPairs_inj_node hamem heu ?_
        have h1' : a.2.2 = u := h1
        rw [h1', huid]
      have hb : b = ((0 + J2, k2), l2, ⟨1 + offsetTo phi J2 + k2, reprLit l2⟩) := by
        refine canonPairs_inj_node hbmem hev ?_
        have h2' : b.2.2 = v := h2
        rw [h2', hvid]
      rw [ha, hb] at hcompl
      simp only at hcompl
      obtain ⟨hname, hneg⟩ := hcompl
      rw [litSat, bool_bne_iff] at hsat1 hsat2
      rw [hname] at hsat1
      rw [hsat1] at hsat2
      exact hneg (Bool.not_inj hsat2)
    · have ha : a = ((0 + J2, k2), l2, ⟨1 + offsetTo phi J2 + k2, reprLit l2⟩) := by
        refine canonPairs_inj_node hamem hev ?_
        have h1' : a.2.2 = v := h1
        rw [h1', hvid]
      have hb : b = ((0 + J1, k1), l1, ⟨1 + offsetTo phi J1 + k1, reprLit l1⟩) := by
        refine canonPairs_inj_node hbmem heu ?_
        have h2' : b.2.2 = u := h2
        rw [h2', huid]
      rw [ha, hb] at hcompl
      simp only at hcompl
      obtain ⟨hname, hneg⟩ := hcompl
      rw [litSat, bool_bne_iff] at hsat1 hsat2
      rw [hname] at hsat2
      rw [hsat2] at hsat1
      exact hneg (Bool.not_inj hsat1)

theorem sol1Choose_subset (phi : Formula) (A : Assignment) :
    ∀ nd ∈ sol1Choose (builtIS phi) A 0 phi, nd ∈ (builtIS phi).graph.nodes := by
  have hcs0 : ∀ jd : Nat, phi[jd]? = phi[0 + jd]? := by
    intro jd
    rw [Nat.zero_add]
  intro nd h
  obtain ⟨jd, k, cl, l, hc, hf, hl, hndeq⟩ := (sol1Choose_mem hcs0).mp h
  rw [Nat.zero_add] at hndeq
  subst hndeq
  rw [builtIS_eq]
  refine List.mem_map.mpr ⟨((0 + jd, k), l, ⟨1 + offsetTo phi jd + k, reprLit l⟩), ?_, rfl⟩
  exact canonPairs_mem.mpr ⟨jd, k, cl, l, hc, hl, by rw [Nat.zero_add]⟩

/-- Claim C1 — R1 round-trip: on a formula whose clauses all have exactly 3
literals and a satisfying total assignment, `solution1_to_solution2` on the
graph built by `build_graph_from_formula` returns a set that (a) is an
independent set of the built graph, (b) has exactly `|clauses|` members
(`length = |clauses|` with no duplicates), with at most one node per
clause — position `jd` of the result holds precisely the node of clause
`jd` (node ids `1 + offsetTo phi jd + k` are the block of clause `jd`), and
(c) for each clause that node is the node created for the first literal (in
original clause order) satisfied by the assignment: index `k` satisfies the
literal and every earlier index does not. -/
theorem round_trip_R1 (phi : Formula) (A : Assignment)
    (h3 : ∀ cl ∈ phi, cl.length = 3) (hsat : Satisfies phi A) :
    IsIndepSet (builtIS phi).graph (solution1_to_solution2 phi (builtIS phi) A) ∧
    (solution1_to_solution2 phi (builtIS phi) A).length = phi.length ∧
    (solution1_to_solution2 phi (builtIS phi) A).Nodup ∧
    ∀ (jd : Nat) (cl : Clause), phi[jd]? = some cl →
      ∃ (k : Nat) (l : Literal), firstSatIdx A cl = some k ∧ cl[k]? = some l ∧
        litSat A l = true ∧
        (∀ k' < k, ∃ l' : Literal, cl[k']? = some l' ∧ litSat A l' = false) ∧
        (solution1_to_solution2 phi (builtIS phi) A)[jd]? =
          some ⟨1 + offsetTo phi jd + k, reprLit l⟩ := by
  have hcs0 : ∀ jd : Nat, phi[jd]? = phi[0 + jd]? := by
    intro jd
    rw [Nat.zero_add]
  have hall : ∀ cl ∈ phi, ∃ k : Nat, firstSatIdx A cl = some k :=
    fun cl hcl => firstSatIdx_isSome (satisfies_iff_litSat.mp hsat cl hcl)
  simp only [solution1_to_solution2]
  refine ⟨sol1Choose_indep phi A, ?_, sol1Choose_nodup hcs0, ?_⟩
  · rw [sol1Choose_length hcs0]
    have hfilter : phi.filter (fun cl => (firstSatIdx A cl).isSome) = phi := by
      apply List.filter_eq_self.mpr
      intro cl hcl
      obtain ⟨k, hk⟩ := hall cl hcl
      rw [hk]
      rfl
    rw [hfilter]
  · intro jd cl hcl
    obtain ⟨k, l, h1, h2, h3p⟩ := sol1Choose_getElem hcs0 hall jd cl hcl
    obtain ⟨l', hl', hs, hfirst⟩ := firstSatIdx_spec h1
    rw [h2] at hl'
    injection hl' with hl'
    subst hl'
    refine ⟨k, l, h1, h2, hs, hfirst, ?_⟩
    rw [Nat.zero_add] at h3p
    exact h3p

/-- Concrete satisfiable 2-clause formula used to instantiate the
round-trip theorems. -/
def phiW : Formula :=
  [[⟨"x1", false⟩, ⟨"x2", false⟩, ⟨"x3", false⟩],
   [⟨"x1", true⟩, ⟨"x2", true⟩, ⟨"x3", false⟩]]

/-- All-true assignment; it satisfies `phiW`. -/
def assignW : Assignment := fun _ => true

/-- Claim C1 witness — the round-trip theorem applied to the concrete
formula `phiW` and the all-true assignment. -/
theorem round_trip_R1_witness :
    ((∀ cl ∈ phiW, cl.length = 3) ∧ Satisfies phiW assignW) ∧
    (IsIndepSet (builtIS phiW).graph (solution1_to_solution2 phiW (builtIS phiW) assignW) ∧
     (solution1_to_solution2 phiW (builtIS phiW) assignW).length = phiW.length ∧
     (solution1_to_solution2 phiW (builtIS phiW) assignW).Nodup ∧
     ∀ (jd : Nat) (cl : Clause), phiW[jd]? = some cl →
       ∃ (k : Nat) (l : Literal), firstSatIdx assignW cl = some k ∧ cl[k]? = some l ∧
         litSat assignW l = true ∧
         (∀ k' < k, ∃ l' : Literal, cl[k']? = some l' ∧ litSat assignW l' = false) ∧
         (solution1_to_solution2 phiW (builtIS phiW) assignW)[jd]? =
           some ⟨1 + offsetTo phiW jd + k, reprLit l⟩) :=
  ⟨⟨by decide, by decide⟩, round_trip_R1 phiW assignW (by decide) (by decide)⟩

theorem buildClauseNodes_growth (lits : List Literal) (st : ISRed) (j k : Nat) :
    (buildClauseNodes st j k lits).1.graph.nodes.length =
      st.graph.nodes.length + lits.length ∧
    (buildClauseNodes st j k lits).1.graph.edges = st.graph.edges := by
  induction lits generalizing st k with
  | nil => simp [buildClauseNodes]
  | cons a rest ih =>
    rw [buildClauseNodes]
    have := ih ⟨st.next_node_id + 1,
      ⟨st.graph.nodes ++ [⟨st.next_node_id, reprLit a⟩], st.graph.edges⟩,
      updatePairs st.pairs (j, k) a ⟨st.next_node_id, reprLit a⟩⟩ (k + 1)
    simp only [List.length_append, List.length_singleton] at this
    constructor
    · rw [this.1]
      simp only [List.length_cons]
      omega
    · exact this.2

theorem buildClauses_growth (cs : List Clause) (st : ISRed) (j : Nat) :
    (buildClauses st j cs).graph.nodes.length =
      st.graph.nodes.length + totalLits cs ∧
    ∃ t : List Edge, (buildClauses st j cs).graph.edges = st.graph.edges ++ t := by
  induction cs generalizing st j with
  | nil => exact ⟨by simp [buildClauses, totalLits], [], by simp [buildClauses]⟩
  | cons c0 rest ih =>
    rw [buildClauses]
    obtain ⟨hn, t, ht⟩ := ih (buildClause st j c0) (j + 1)
    have hcn := buildClauseNodes_growth c0 st j 0
    constructor
    · rw [hn]
      simp only [buildClause, hcn.1, totalLits]
      omega
    · refine ⟨(allPairs (buildClauseNodes st j 0 c0).2).map (fun q => ⟨q.1, q.2⟩) ++ t, ?_⟩
      rw [ht]
      simp only [buildClause, hcn.2, List.append_assoc]

theorem canonVarNodesFlat_length : ∀ (names : List String) (s : Nat),
    (canonVarNodesFlat names s).length = 2 * names.length := by
  intro names
  induction names with
  | nil => intro s; rfl
  | cons x rest ih =>
    intro s
    simp only [canonVarNodesFlat, List.length_cons, ih]
    omega

theorem canonGadgetNodes_length : ∀ (cls : Formula3) (s : Nat),
    (canonGadgetNodes cls s).length = 6 * cls.length := by
  intro cls
  induction cls with
  | nil => intro s; rfl
  | cons cl rest ih =>
    intro s
    simp only [canonGadgetNodes, gadgetNodes6, List.length_append, List.length_cons,
      List.length_nil, ih]
    omega

theorem canonVarEdges_length (bnode : Node) : ∀ (names : List String) (s : Nat),
    (canonVarEdges bnode names s).length = 3 * names.length := by
  intro names
  induction names with
  | nil => intro s; rfl
  | cons x rest ih =>
    intro s
    simp only [canonVarEdges, List.length_cons, ih]
    omega

theorem canonGadgetEdges_length (vns : List (String × Node × Node))
    (bnode fnode : Node) : ∀ (cls : Formula3) (s : Nat),
    (canonGadgetEdges vns bnode fnode cls s).length = 12 * cls.length := by
  intro cls
  induction cls with
  | nil => intro s; rfl
  | cons cl rest ih =>
    intro s
    simp only [canonGadgetEdges, gadgetEdges12, List.length_append, List.length_cons,
      List.length_nil, ih]
    omega

theorem canonOutputs_length : ∀ (cls : Formula3) (s : Nat),
    (canonOutputs cls s).length = cls.length := by
  intro cls
  induction cls with
  | nil => intro s; rfl
  | cons cl rest ih =>
    intro s
    simp only [canonOutputs, List.length_cons, ih]

theorem build_color_base_spec (st : ColState) :
    build_color_base st =
      { st with next_node_id := st.next_node_id + 3,
                nodes := st.nodes ++ [⟨st.next_node_id, "Base"⟩,
                  ⟨st.next_node_id + 1, "True"⟩, ⟨st.next_node_id + 2, "False"⟩],
                edges := st.edges ++
                  [⟨⟨st.next_node_id, "Base"⟩, ⟨st.next_node_id + 1, "True"⟩⟩,
                   ⟨⟨st.next_node_id + 1, "True"⟩, ⟨st.next_node_id + 2, "False"⟩⟩,
                   ⟨⟨st.next_node_id + 2, "False"⟩, ⟨st.next_node_id, "Base"⟩⟩],
                base_node := ⟨st.next_node_id, "Base"⟩,
                true_node := ⟨st.next_node_id + 1, "True"⟩,
                false_node := ⟨st.next_node_id + 2, "False"⟩ } := by
  simp only [build_color_base, addNodeC, addEdgeC, ColState.mk.injEq,
    List.append_assoc, List.cons_append, List.nil_append, List.singleton_append,
    Nat.add_assoc, and_true, true_and]

theorem build_variable_gadgets_counts :
    ∀ (names : List String) (st : ColState),
      (build_variable_gadgets st names).next_node_id =
        st.next_node_id + 2 * names.length ∧
      (build_variable_gadgets st names).nodes =
        st.nodes ++ canonVarNodesFlat names st.next_node_id ∧
      (build_variable_gadgets st names).edges =
        st.edges ++ canonVarEdges st.base_node names st.next_node_id ∧
      (build_variable_gadgets st names).base_node = st.base_node ∧
      (build_variable_gadgets st names).true_node = st.true_node ∧
      (build_variable_gadgets st names).false_node = st.false_node ∧
      (build_variable_gadgets st names).clause_outputs = st.clause_outputs := by
  intro names
  induction names with
  | nil =>
    intro st
    simp [build_variable_gadgets, canonVarNodesFlat, canonVarEdges]
  | cons x rest ih =>
    intro st
    have hstep : build_variable_gadgets st (x :: rest) =
        build_variable_gadgets (build_variable_gadget st x) rest := rfl
    obtain ⟨h1, h2, h3, h4, h5, h6, h7⟩ := ih (build_variable_gadget st x)
    have hb1 : (build_variable_gadget st x).next_node_id = st.next_node_id + 2 := by
      simp only [build_variable_gadget, addNodeC, addEdgeC, Nat.add_assoc]
    have hb2 : (build_variable_gadget st x).nodes =
        st.nodes ++ [⟨st.next_node_id, x⟩, ⟨st.next_node_id + 1, "¬" ++ x⟩] := by
      simp [build_variable_gadget, addNodeC, addEdgeC]
    have hb3 : (build_variable_gadget st x).edges =
        st.edges ++ [⟨⟨st.next_node_id, x⟩, ⟨st.next_node_id + 1, "¬" ++ x⟩⟩,
          ⟨⟨st.next_node_id, x⟩, st.base_node⟩,
          ⟨⟨st.next_node_id + 1, "¬" ++ x⟩, st.base_node⟩] := by
      simp [build_variable_gadget, addNodeC, addEdgeC]
    have hb4 : (build_variable_gadget st x).base_node = st.base_node := rfl
    have hb5 : (build_variable_gadget st x).true_node = st.true_node := rfl
    have hb6 : (build_variable_gadget st x).false_node = st.false_node := rfl
    have hb7 : (build_variable_gadget st x).clause_outputs = st.clause_outputs := rfl
    rw [hstep]
    refine ⟨?_, ?_, ?_, ?_, ?_, ?_, ?_⟩
    · rw [h1, hb1]
      simp only [List.length_cons]
      omega
    · rw [h2, hb2, hb1]
      simp only [canonVarNodesFlat, List.append_assoc, List.cons_append,
        List.nil_append, List.singleton_append]
    · rw [h3, hb3, hb1, hb4]
      simp only [canonVarEdges, List.append_assoc, List.cons_append,
        List.nil_append, List.singleton_append]
    · rw [h4, hb4]
    · rw [h5, hb5]
    · rw [h6, hb6]
    · rw [h7, hb7]

/-- ThreeSatToThreeColoringReduction.build_graph_from_formula invoked on
an existing state: a repeated call continues from the problem's current
graph and node counter (nothing is reset except `clause_outputs`,
which `_build_clause_gadgets` reassigns to a fresh list). -/
def build_graph_3col_on (st : ColState) (phi : Formula3) : ColState :=
  build_clause_gadgets
    (build_variable_gadgets (build_color_base st) (varNames3 phi)) phi

theorem build_graph_3col_on_growth (phi : Formula3) (st : ColState) :
    (build_graph_3col_on st phi).nodes.length =
      st.nodes.length + (3 + 2 * (varNames3 phi).length + 6 * phi.length) ∧
    (∃ t : List Edge, (build_graph_3col_on st phi).edges = st.edges ++ t ∧
      t.length = 3 + 3 * (varNames3 phi).length + 12 * phi.length) ∧
    (build_graph_3col_on st phi).clause_outputs.length = phi.length := by
  obtain ⟨c1, c2, c3, c4, _, _, _⟩ :=
    build_variable_gadgets_counts (varNames3 phi) (build_color_base st)
  rw [build_graph_3col_on, build_clause_gadgets, build_clause_fold_spec,
    build_color_base_spec st]
  rw [build_color_base_spec st] at c1 c2 c3 c4
  dsimp only at c1 c2 c3 c4 ⊢
  rw [c1, c2, c3, c4]
  refine ⟨?_, ?_, ?_⟩
  · simp only [List.length_append, canonVarNodesFlat_length, canonGadgetNodes_length,
      List.length_cons, List.length_nil]
    omega
  · rw [List.append_assoc, List.append_assoc]
    refine ⟨_, rfl, ?_⟩
    simp only [List.length_append, canonVarEdges_length, canonGadgetEdges_length,
      List.length_cons, List.length_nil]
    omega
  · simp only [List.nil_append, canonOutputs_length]

/-- A concrete one-clause formula for the 3-coloring rebuild
counterexample. -/
def phi3C6 : Formula3 := [(⟨"a", false⟩, ⟨"b", false⟩, ⟨"c", false⟩)]

/-- Claim C6, counterexample — `build_graph_from_formula` is not
idempotent for either reduction: calling it a second time on the same
reduction instance (no reset happens) yields a graph whose node count
differs from the first call's (12 vs 6 on the concrete 2-clause formula
for the independent-set build, 30 vs 15 on the concrete 1-clause formula
for the 3-coloring build), so the two graphs are not structurally
identical. -/
theorem build_second_call_not_idempotent :
    (build_graph_from_formula phiW (build_graph_from_formula phiW initISRed)).graph.nodes.length ≠
      (build_graph_from_formula phiW initISRed).graph.nodes.length ∧
    (build_graph_3col_on (build_graph_3col phi3C6) phi3C6).nodes.length ≠
      (build_graph_3col phi3C6).nodes.length := by
  constructor
  · decide
  · decide

/-- Claim C6, amended — neither reduction's `build_graph_from_formula`
performs any reset before rebuilding, so a second call on the same
reduction instance is not structurally identical to the first. For the
3-SAT-to-Independent-Set reduction the second call appends a full fresh
copy of the per-literal nodes (the node count doubles, one node per
literal occurrence per call) and only ever appends to the edge set (the
first call's edges remain a prefix). For the 3-SAT-to-3-Coloring
reduction the second call re-appends a fresh base triangle, fresh
variable-gadget nodes and fresh clause-gadget nodes, so node and edge
counts double and the first call's edges remain a prefix; only its
`clause_outputs` list is reassigned to a fresh one, keeping one entry per
clause. -/
theorem build_second_call_grows (phi : Formula) (phi3 : Formula3) :
    ((build_graph_from_formula phi (build_graph_from_formula phi initISRed)).graph.nodes.length =
      2 * (build_graph_from_formula phi initISRed).graph.nodes.length ∧
     ∃ t : List Edge,
      (build_graph_from_formula phi (build_graph_from_formula phi initISRed)).graph.edges =
        (build_graph_from_formula phi initISRed).graph.edges ++ t) ∧
    ((build_graph_3col_on (build_graph_3col phi3) phi3).nodes.length =
      2 * (build_graph_3col phi3).nodes.length ∧
     (∃ t : List Edge,
      (build_graph_3col_on (build_graph_3col phi3) phi3).edges =
        (build_graph_3col phi3).edges ++ t) ∧
     (build_graph_3col_on (build_graph_3col phi3) phi3).edges.length =
      2 * (build_graph_3col phi3).edges.length ∧
     (build_graph_3col_on (build_graph_3col phi3) phi3).clause_outputs.length =
      phi3.length) := by
  constructor
  · have hgrow : ∀ st : ISRed,
        (build_graph_from_formula phi st).graph.nodes.length =
          st.graph.nodes.length + totalLits phi ∧
        ∃ t : List Edge, (build_graph_from_formula phi st).graph.edges =
          st.graph.edges ++ t := by
      intro st
      obtain ⟨hn, t, ht⟩ := buildClauses_growth phi st 0
      refine ⟨hn, t ++ interEdges (buildClauses st 0 phi).pairs, ?_⟩
      simp only [build_graph_from_formula, ht, List.append_assoc]
    obtain ⟨h1n, t1, h1e⟩ := hgrow initISRed
    obtain ⟨h2n, t2, h2e⟩ := hgrow (build_graph_from_formula phi initISRed)
    constructor
    · rw [h2n, h1n]
      simp [initISRed]
      omega
    · exact ⟨t2, h2e⟩
  · have hid : build_graph_3col_on initColState phi3 = build_graph_3col phi3 := rfl
    obtain ⟨f1, ⟨t1, ht1, hl1⟩, _⟩ := build_graph_3col_on_growth phi3 initColState
    rw [hid] at f1 ht1
    obtain ⟨s1, ⟨t2, ht2, hl2⟩, s3⟩ :=
      build_graph_3col_on_growth phi3 (build_graph_3col phi3)
    have hn1 : (build_graph_3col phi3).nodes.length =
        3 + 2 * (varNames3 phi3).length + 6 * phi3.length := by
      rw [f1]
      simp [initColState]
    have he1 : (build_graph_3col phi3).edges.length =
        3 + 3 * (varNames3 phi3).length + 12 * phi3.length := by
      rw [ht1, List.length_append, hl1]
      simp [initColState]
    refine ⟨?_, ⟨t2, ht2⟩, ?_, s3⟩
    · rw [s1, hn1]
      omega
    · rw [ht2, List.length_append, hl2, he1]
      omega

theorem get_node_by_id_node_obj (g : Graph) (n : Node) :
    get_node_by_id g (PyVal.node n) = none := by
  rw [get_node_by_id, List.find?_eq_none]
  intro x _
  simp [pyEq]

theorem hasEdge_none_none (g : Graph) : hasEdge g none none = false := by
  rw [hasEdge, List.any_eq_false]
  intro e _
  simp

theorem evaluateIS_node_objs (g : Graph) (l : List Node) :
    evaluateIS g (l.map PyVal.node) = true := by
  rw [evaluateIS]
  have h1 : ((l.map PyVal.node).any fun a => (l.map PyVal.node).any fun b =>
      !pyEq a b && hasEdge g (get_node_by_id g a) (get_node_by_id g b)) = false := by
    rw [List.any_eq_false]
    intro a ha hX
    obtain ⟨b, hb, hcond⟩ := List.any_eq_true.mp hX
    obtain ⟨na, _, rfl⟩ := List.mem_map.mp ha
    obtain ⟨nb, _, rfl⟩ := List.mem_map.mp hb
    rw [get_node_by_id_node_obj, get_node_by_id_node_obj, hasEdge_none_none] at hcond
    simp at hcond
  rw [h1]
  rfl

/-- Claim C7 — `IndependentSetProblem.evaluate`, when handed a collection
of `Node` objects instead of integer ids (exactly what
`Reduction.test_solution` passes), returns True for every graph and every
such collection: `get_node_by_id` compares each node's integer `node_id`
to the passed `Node` object, which is never equal, so both lookups return
`None`, and `hasEdge(None, None)` is False for every edge.  Consequently
the second component of `test_solution` is True for every formula and
assignment. -/
theorem evaluate_on_node_objects :
    (∀ (g : Graph) (l : List Node), evaluateIS g (l.map PyVal.node) = true) ∧
    (∀ (phi : Formula) (A : Assignment), test_solution_snd phi A = true) := by
  refine ⟨evaluateIS_node_objs, ?_⟩
  intro phi A
  rw [test_solution_snd]
  exact evaluateIS_node_objs _ _

theorem clausePairs_pairwise_id {lits : List Literal} {j k s : Nat} :
    (clausePairs j k s lits).Pairwise (fun a b => a.2.2.node_id < b.2.2.node_id) := by
  induction lits generalizing k s with
  | nil => simp [clausePairs]
  | cons a rest ih =>
    rw [clausePairs]
    refine List.Pairwise.cons ?_ ih
    intro e he
    obtain ⟨kd, l, _, rfl⟩ := clausePairs_mem.mp he
    simp only
    omega

theorem canonPairs_pairwise_id {cs : List Clause} {j s : Nat} :
    (canonPairs j s cs).Pairwise (fun a b => a.2.2.node_id < b.2.2.node_id) := by
  induction cs generalizing j s with
  | nil => simp [canonPairs]
  | cons c0 rest ih =>
    rw [canonPairs]
    rw [List.pairwise_append]
    refine ⟨clausePairs_pairwise_id, ih, ?_⟩
    intro e1 h1 e2 h2
    obtain ⟨kd, l, hkd, rfl⟩ := clausePairs_mem.mp h1
    obtain ⟨jd, kd2, cl, l2, _, _, rfl⟩ := canonPairs_mem.mp h2
    have hb : kd < c0.length := (List.getElem?_eq_some.mp hkd).1
    simp only
    omega

theorem builtIS_nodes_pairwise (phi : Formula) :
    (builtIS phi).graph.nodes.Pairwise (fun a b => a.node_id ≠ b.node_id) := by
  rw [builtIS_eq]
  simp only []
  rw [List.pairwise_map]
  refine canonPairs_pairwise_id.imp ?_
  intro a b hlt heq
  omega

theorem find_by_id_eq : ∀ (nodes : List Node) (u : Node),
    u ∈ nodes → nodes.Pairwise (fun a b => a.node_id ≠ b.node_id) →
    nodes.find? (fun n => pyEq (.int n.node_id) (.int u.node_id)) = some u := by
  intro nodes
  induction nodes with
  | nil =>
    intro u hmem _
    simp at hmem
  | cons n rest ih =>
    intro u hmem hnd
    rw [List.find?_cons]
    rcases List.mem_cons.mp hmem with rfl | htail
    · simp [pyEq]
    · have hne : n.node_id ≠ u.node_id := (List.pairwise_cons.mp hnd).1 u htail
      have hpf : pyEq (.int n.node_id) (.int u.node_id) = false := by
        simp [pyEq, hne]
      rw [hpf]
      exact ih u htail (List.pairwise_cons.mp hnd).2

theorem get_node_by_id_int {g : Graph} {u : Node}
    (hmem : u ∈ g.nodes) (hnd : g.nodes.Pairwise (fun a b => a.node_id ≠ b.node_id)) :
    get_node_by_id g (PyVal.int u.node_id) = some u := by
  rw [get_node_by_id]
  exact find_by_id_eq g.nodes u hmem hnd

theorem evaluateIS_ids_of_indep {g : Graph} {S : List Node}
    (hsub : ∀ n ∈ S, n ∈ g.nodes)
    (hnd : g.nodes.Pairwise (fun a b => a.node_id ≠ b.node_id))
    (hindep : IsIndepSet g S) :
    evaluateIS g (S.map (fun n => PyVal.int n.node_id)) = true := by
  rw [evaluateIS]
  have h1 : ((S.map (fun n => PyVal.int n.node_id)).any fun a =>
      (S.map (fun n => PyVal.int n.node_id)).any fun b =>
      !pyEq a b && hasEdge g (get_node_by_id g a) (get_node_by_id g b)) = false := by
    rw [List.any_eq_false]
    intro a ha hX
    obtain ⟨b, hb, hcond⟩ := List.any_eq_true.mp hX
    obtain ⟨u, hu, rfl⟩ := List.mem_map.mp ha
    obtain ⟨v, hv, rfl⟩ := List.mem_map.mp hb
    by_cases hid : u.node_id = v.node_id
    · simp [pyEq, hid] at hcond
    · have hne : u ≠ v := fun h => hid (by rw [h])
      rw [get_node_by_id_int (hsub u hu) hnd, get_node_by_id_int (hsub v hv) hnd] at hcond
      have hadj := hindep u hu v hv hne
      rw [adjacent] at hadj
      rw [hadj] at hcond
      simp at hcond
  rw [h1]
  rfl

/-- Concrete unsatisfiable-clause inputs: a single clause that the
all-false assignment leaves unsatisfied. -/
def phiUnsat : Formula := [[⟨"x1", false⟩, ⟨"x2", false⟩, ⟨"x3", false⟩]]

/-- All-false assignment. -/
def assignFalse : Assignment := fun _ => false

/-- Claim C4, counterexample — on the concrete one-clause formula and the
all-false assignment, `solution1_to_solution2` returns an undersized set
(0 of 1 nodes), but `IndependentSetProblem.evaluate` does not reject it:
evaluate returns True, not False (it checks only pairwise independence and
never the cardinality `k`). -/
theorem undersized_set_not_rejected :
    (solution1_to_solution2 phiUnsat (builtIS phiUnsat) assignFalse).length <
      phiUnsat.length ∧
    evaluateIS (builtIS phiUnsat).graph
      ((solution1_to_solution2 phiUnsat (builtIS phiUnsat) assignFalse).map
        (fun n => PyVal.int n.node_id)) ≠ false := by
  decide

/-- Claim C4, amended — for an assignment leaving some clause with no
satisfied literal, the mapper (it raises no error; it is a total function
here) adds no node for any unsatisfied clause — the result has exactly one
node per clause with a satisfied literal, hence fewer than `|clauses|`
nodes — but the independent-set evaluator does NOT reject the undersized
set: it checks only pairwise non-adjacency, never the size `k`, and
returns True both on the node ids and on the `Node` objects that
`test_solution` actually passes. -/
theorem undersized_set_accepted (phi : Formula) (A : Assignment)
    (hunsat : ∃ cl ∈ phi, ∀ l ∈ cl, litSat A l = false) :
    (solution1_to_solution2 phi (builtIS phi) A).length =
      (phi.filter (fun cl => (firstSatIdx A cl).isSome)).length ∧
    (solution1_to_solution2 phi (builtIS phi) A).length < phi.length ∧
    evaluateIS (builtIS phi).graph
      ((solution1_to_solution2 phi (builtIS phi) A).map
        (fun n => PyVal.int n.node_id)) = true ∧
    evaluateIS (builtIS phi).graph
      ((solution1_to_solution2 phi (builtIS phi) A).map PyVal.node) = true := by
  have hcs0 : ∀ jd : Nat, phi[jd]? = phi[0 + jd]? := by
    intro jd
    rw [Nat.zero_add]
  simp only [solution1_to_solution2]
  have hlen := @sol1Choose_length phi A 0 phi hcs0
  refine ⟨hlen, ?_, ?_, evaluateIS_node_objs _ _⟩
  · rw [hlen]
    have hle := List.length_filter_le (fun cl => (firstSatIdx A cl).isSome) phi
    have hne : (phi.filter (fun cl => (firstSatIdx A cl).isSome)).length ≠ phi.length := by
      intro hlen2
      obtain ⟨cl, hcl, hns⟩ := hunsat
      have hnone : firstSatIdx A cl = none := firstSatIdx_none.mpr hns
      have hall := (List.filter_length_eq_length).mp hlen2 cl hcl
      rw [hnone] at hall
      simp at hall
    omega
  · exact evaluateIS_ids_of_indep (sol1Choose_subset phi A)
      (builtIS_nodes_pairwise phi) (sol1Choose_indep phi A)

/-- Claim C4 witness — the amended statement applied to the concrete
one-clause formula and the all-false assignment. -/
theorem undersized_set_accepted_witness :
    (∃ cl ∈ phiUnsat, ∀ l ∈ cl, litSat assignFalse l = false) ∧
    ((solution1_to_solution2 phiUnsat (builtIS phiUnsat) assignFalse).length =
      (phiUnsat.filter (fun cl => (firstSatIdx assignFalse cl).isSome)).length ∧
    (solution1_to_solution2 phiUnsat (builtIS phiUnsat) assignFalse).length <
      phiUnsat.length ∧
    evaluateIS (builtIS phiUnsat).graph
      ((solution1_to_solution2 phiUnsat (builtIS phiUnsat) assignFalse).map
        (fun n => PyVal.int n.node_id)) = true ∧
    evaluateIS (builtIS phiUnsat).graph
      ((solution1_to_solution2 phiUnsat (builtIS phiUnsat) assignFalse).map
        PyVal.node) = true) :=
  ⟨by decide, undersized_set_accepted phiUnsat assignFalse (by decide)⟩

/-- First dict entry of `input1_to_input2_pairs` whose node is the given
one (node values are unique in the built state, so this is the entry). -/
def entryOfNode (phi : Formula) (nd : Node) : Option PairEntry :=
  (canonPairs 0 1 phi).find? (fun e => e.2.2 == nd)

/-- Clause index recorded in that entry. -/
def clauseIdxOf (phi : Formula) (nd : Node) : Nat :=
  ((entryOfNode phi nd).map (fun e => e.1.1)).getD 0

theorem entryOfNode_eq {phi : Formula} {e : PairEntry}
    (he : e ∈ canonPairs 0 1 phi) : entryOfNode phi e.2.2 = some e := by
  rw [entryOfNode]
  match hfind : (canonPairs 0 1 phi).find? (fun x => x.2.2 == e.2.2) with
  | none =>
    rw [List.find?_eq_none] at hfind
    exact absurd (by simp) (hfind e he)
  | some x =>
    have hx := List.mem_of_find?_eq_some hfind
    have hpx := List.find?_some hfind
    rw [beq_iff_eq] at hpx
    rw [hfind, canonPairs_inj_node hx he (by rw [hpx])]

theorem recoverFold_mem {S : List Node} {ps : List PairEntry} {d : Dict}
    {p : String × Bool} (hp : p ∈ recoverFold S ps d) :
    p ∈ d ∨ ∃ e ∈ ps, e.2.2 ∈ S ∧ p = (e.2.1.name, !e.2.1.is_negated) := by
  induction ps generalizing d with
  | nil => exact Or.inl hp
  | cons e rest ih =>
    rw [recoverFold] at hp
    rcases ih hp with hd | ⟨e', he', hsel, heq⟩
    · by_cases hs : decide (e.2.2 ∈ S) = true
      · rw [if_pos hs, setdefault] at hd
        by_cases hk : d.any (fun q => q.1 == e.2.1.name) = true
        · rw [if_pos hk] at hd
          exact Or.inl hd
        · rw [if_neg hk] at hd
          rcases List.mem_append.mp hd with h | h
          · exact Or.inl h
          · simp only [List.mem_singleton] at h
            exact Or.inr ⟨e, List.mem_cons_self _ _, of_decide_eq_true hs, h⟩
      · rw [if_neg hs] at hd
        exact Or.inl hd
    · exact Or.inr ⟨e', List.mem_cons_of_mem _ he', hsel, heq⟩

theorem recoverFold_keys_mono {S : List Node} {ps : List PairEntry} {d : Dict}
    {k : String} (h : d.any (fun q => q.1 == k) = true) :
    (recoverFold S ps d).any (fun q => q.1 == k) = true := by
  induction ps generalizing d with
  | nil => exact h
  | cons e rest ih =>
    rw [recoverFold]
    apply ih
    by_cases hs : decide (e.2.2 ∈ S) = true
    · rw [if_pos hs, setdefault]
      by_cases hk : d.any (fun q => q.1 == e.2.1.name) = true
      · rw [if_pos hk]
        exact h
      · rw [if_neg hk, List.any_append, h]
        rfl
    · rw [if_neg hs]
      exact h

theorem recoverFold_hasKey {S : List Node} {ps : List PairEntry} {d : Dict}
    {e : PairEntry} (he : e ∈ ps) (hsel : e.2.2 ∈ S) :
    (recoverFold S ps d).any (fun q => q.1 == e.2.1.name) = true := by
  induction ps generalizing d with
  | nil => simp at he
  | cons e0 rest ih =>
    rw [recoverFold]
    rcases List.mem_cons.mp he with rfl | htail
    · apply recoverFold_keys_mono
      rw [if_pos (decide_eq_true hsel), setdefault]
      by_cases hk : d.any (fun q => q.1 == e.2.1.name) = true
      · rw [if_pos hk]
        exact hk
      · rw [if_neg hk, List.any_append]
        simp
    · exact ih htail

/-- Claim C3 — R1 backward soundness: for every set `S` of nodes of the
graph built by `build_graph_from_formula` that is an independent set of
that graph and has exactly `|clauses|` members, the assignment returned by
`solution2_to_solution1` (selected nodes fix their variables, all other
variables default to False) satisfies the formula: ThreeSATProblem
evaluate returns True on it. -/
theorem backward_soundness_R1 (phi : Formula) (S : List Node)
    (hsub : ∀ n ∈ S, n ∈ (builtIS phi).graph.nodes)
    (hnodup : S.Nodup)
    (hindep : IsIndepSet (builtIS phi).graph S)
    (hcard : S.length = phi.length) :
    evaluate3Sat phi (solution2_to_solution1 phi (builtIS phi) S) = true := by
  classical
  have hpairs : (builtIS phi).pairs = canonPairs 0 1 phi := by rw [builtIS_eq]
  -- every member of S is the node of a unique dict entry
  have hchar : ∀ n ∈ S, ∃ e : PairEntry, e ∈ canonPairs 0 1 phi ∧ e.2.2 = n := by
    intro n hn
    have hmem := hsub n hn
    rw [builtIS_eq] at hmem
    obtain ⟨e, he, heq⟩ := List.mem_map.mp hmem
    exact ⟨e, he, heq⟩
  -- two distinct selected nodes never come from the same clause (triangle)
  have honeper : ∀ u ∈ S, ∀ v ∈ S, u ≠ v →
      ∀ eu ev : PairEntry, eu ∈ canonPairs 0 1 phi → ev ∈ canonPairs 0 1 phi →
      eu.2.2 = u → ev.2.2 = v → eu.1.1 ≠ ev.1.1 := by
    intro u hu v hv hne eu ev heu hev hequ heqv hJeq
    obtain ⟨jd1, k1, c1, l1, hc1, hl1, hee1⟩ := canonPairs_mem.mp heu
    obtain ⟨jd2, k2, c2, l2, hc2, hl2, hee2⟩ := canonPairs_mem.mp hev
    have hJ1 : eu.1.1 = jd1 := by rw [hee1]; simp
    have hJ2 : ev.1.1 = jd2 := by rw [hee2]; simp
    have hjd : jd1 = jd2 := by rw [← hJ1, ← hJ2, hJeq]
    subst hjd
    rw [hc1] at hc2
    injection hc2 with hc2
    subst hc2
    have hkne : k1 ≠ k2 := by
      intro hk
      subst hk
      rw [hl1] at hl2
      injection hl2 with hl2
      subst hl2
      rw [← hee1] at hee2
      exact hne (by rw [← hequ, ← heqv, hee2])
    have hu1 : u = (⟨1 + offsetTo phi jd1 + k1, reprLit l1⟩ : Node) := by
      rw [← hequ, hee1]
    have hv2 : v = (⟨1 + offsetTo phi jd1 + k2, reprLit l2⟩ : Node) := by
      rw [← heqv, hee2]
    rcases Nat.lt_or_ge k1 k2 with hlt | hge
    · have hedge : (⟨⟨1 + offsetTo phi jd1 + k1, reprLit l1⟩,
          ⟨1 + offsetTo phi jd1 + k2, reprLit l2⟩⟩ : Edge) ∈
          (builtIS phi).graph.edges := by
        rw [builtIS_eq]
        exact List.mem_append.mpr (Or.inl
          (canonTri_mem.mpr ⟨jd1, k1, k2, c1, l1, l2, hc1, hlt, hl1, hl2, rfl⟩))
      have hadj := adjacent_of_edge_mem hedge
      rw [← hu1, ← hv2] at hadj
      have hno := hindep u hu v hv hne
      rw [hno] at hadj
      exact Bool.false_ne_true hadj
    · have hlt2 : k2 < k1 := by omega
      have hedge : (⟨⟨1 + offsetTo phi jd1 + k2, reprLit l2⟩,
          ⟨1 + offsetTo phi jd1 + k1, reprLit l1⟩⟩ : Edge) ∈
          (builtIS phi).graph.edges := by
        rw [builtIS_eq]
        exact List.mem_append.mpr (Or.inl
          (canonTri_mem.mpr ⟨jd1, k2, k1, c1, l2, l1, hc1, hlt2, hl2, hl1, rfl⟩))
      have hadj := adjacent_swap_of_edge_mem hedge
      rw [← hu1, ← hv2] at hadj
      have hno := hindep u hu v hv hne
      rw [hno] at hadj
      exact Bool.false_ne_true hadj
  -- the clause-index map is injective on S, so every clause is hit
  have hex : ∀ J : Nat, J < phi.length →
      ∃ n ∈ S, ∃ e : PairEntry, e ∈ canonPairs 0 1 phi ∧ e.2.2 = n ∧ e.1.1 = J := by
    have hfval : ∀ n ∈ S, ∃ e : PairEntry, e ∈ canonPairs 0 1 phi ∧ e.2.2 = n ∧
        clauseIdxOf phi n = e.1.1 ∧ e.1.1 < phi.length := by
      intro n hn
      obtain ⟨e, he, heq⟩ := hchar n hn
      refine ⟨e, he, heq, ?_, ?_⟩
      · rw [clauseIdxOf, ← heq, entryOfNode_eq he]
        rfl
      · obtain ⟨jd, k, cl, l, hc, hl, hee⟩ := canonPairs_mem.mp he
        have hbound := (List.getElem?_eq_some.mp hc).1
        rw [hee]
        simpa using hbound
    have hinj : Set.InjOn (clauseIdxOf phi) S.toFinset := by
      intro u hu' v hv' hfeq
      by_contra hne
      have hu : u ∈ S := List.mem_toFinset.mp hu'
      have hv : v ∈ S := List.mem_toFinset.mp hv'
      obtain ⟨eu, heu, hequ, hfu, _⟩ := hfval u hu
      obtain ⟨ev, hev, heqv, hfv, _⟩ := hfval v hv
      exact honeper u hu v hv hne eu ev heu hev hequ heqv (by rw [← hfu, ← hfv, hfeq])
    have hcardeq : (S.toFinset.image (clauseIdxOf phi)).card = phi.length := by
      rw [Finset.card_image_of_injOn hinj, List.toFinset_card_of_nodup hnodup, hcard]
    have hsubset : S.toFinset.image (clauseIdxOf phi) ⊆ Finset.range phi.length := by
      intro J hJ
      obtain ⟨n, hn', rfl⟩ := Finset.mem_image.mp hJ
      obtain ⟨e, _, _, hfn, hbd⟩ := hfval n (List.mem_toFinset.mp hn')
      rw [Finset.mem_range, hfn]
      exact hbd
    have himg : S.toFinset.image (clauseIdxOf phi) = Finset.range phi.length :=
      Finset.eq_of_subset_of_card_le hsubset (by rw [hcardeq, Finset.card_range])
    intro J hJ
    have : J ∈ S.toFinset.image (clauseIdxOf phi) := by
      rw [himg, Finset.mem_range]
      exact hJ
    obtain ⟨n, hn', hfn⟩ := Finset.mem_image.mp this
    have hn : n ∈ S := List.mem_toFinset.mp hn'
    obtain ⟨e, he, heq, hfe, _⟩ := hfval n hn
    exact ⟨n, hn, e, he, heq, by rw [← hfe, hfn]⟩
  -- selected occurrences of the same variable agree in polarity
  have hcons : ∀ e1 e2 : PairEntry, e1 ∈ canonPairs 0 1 phi → e2 ∈ canonPairs 0 1 phi →
      e1.2.2 ∈ S → e2.2.2 ∈ S → e1.2.1.name = e2.2.1.name →
      e1.2.1.is_negated = e2.2.1.is_negated := by
    intro e1 e2 h1 h2 hs1 hs2 hname
    by_contra hneg
    have hee : e1 ≠ e2 := fun h => hneg (by rw [h])
    have hnodes : e1.2.2 ≠ e2.2.2 := by
      intro h
      exact hee (canonPairs_inj_node h1 h2 (by rw [h]))
    rcases allPairs_of_mem_ne h1 h2 hee with hp | hp
    · have hcomp : complementary e1.2.1 e2.2.1 = true := by
        rw [complementary]
        simp [hname, hneg]
      have hedge : (⟨e1.2.2, e2.2.2⟩ : Edge) ∈ (builtIS phi).graph.edges := by
        rw [builtIS_eq]
        exact List.mem_append.mpr (Or.inr (interEdges_mem.mpr ⟨e1, e2, hp, hcomp, rfl⟩))
      have hadj := adjacent_of_edge_mem hedge
      have hno := hindep e1.2.2 hs1 e2.2.2 hs2 hnodes
      rw [hno] at hadj
      exact Bool.false_ne_true hadj
    · have hneg2 : ¬(e2.2.1.is_negated = e1.2.1.is_negated) := fun h => hneg h.symm
      have hcomp : complementary e2.2.1 e1.2.1 = true := by
        rw [complementary]
        simp [hname, hneg2]
      have hedge : (⟨e2.2.2, e1.2.2⟩ : Edge) ∈ (builtIS phi).graph.edges := by
        rw [builtIS_eq]
        exact List.mem_append.mpr (Or.inr (interEdges_mem.mpr ⟨e2, e1, hp, hcomp, rfl⟩))
      have hadj := adjacent_swap_of_edge_mem hedge
      have hno := hindep e1.2.2 hs1 e2.2.2 hs2 hnodes
      rw [hno] at hadj
      exact Bool.false_ne_true hadj
  -- value of the final dict at a selected entry's variable
  have hval : ∀ e : PairEntry, e ∈ canonPairs 0 1 phi → e.2.2 ∈ S →
      dictGet (solution2_to_solution1 phi (builtIS phi) S) e.2.1.name false =
        !e.2.1.is_negated := by
    intro e he hsel
    have hkey : (recoverFold S (canonPairs 0 1 phi) []).any
        (fun q => q.1 == e.2.1.name) = true := recoverFold_hasKey he hsel
    have hfind : ∃ pr : String × Bool,
        (recoverFold S (canonPairs 0 1 phi) []).find?
          (fun q => q.1 == e.2.1.name) = some pr := by
      obtain ⟨x, hx, hpx⟩ := List.any_eq_true.mp hkey
      match hf : (recoverFold S (canonPairs 0 1 phi) []).find?
          (fun q => q.1 == e.2.1.name) with
      | some pr => exact ⟨pr, hf⟩
      | none =>
        rw [List.find?_eq_none] at hf
        exact absurd hpx (hf x hx)
    obtain ⟨pr, hpr⟩ := hfind
    have hprmem := List.mem_of_find?_eq_some hpr
    have hprkey : pr.1 = e.2.1.name := by
      have := List.find?_some hpr
      rwa [beq_iff_eq] at this
    have hprval : pr.2 = !e.2.1.is_negated := by
      rcases recoverFold_mem hprmem with h | ⟨e', he', hsel', heq⟩
      · simp at h
      · have hname : e'.2.1.name = e.2.1.name := by
          rw [heq] at hprkey
          exact hprkey
        have := hcons e' e he' he hsel' hsel hname
        rw [heq]
        simp only
        rw [this]
    rw [solution2_to_solution1, hpairs]
    simp only [dictGet, List.find?_append, hpr, Option.or_some]
    exact hprval
  -- assemble: every clause has a satisfied literal in the recovered dict
  rw [evaluate3Sat_characterization]
  intro cl hcl
  obtain ⟨J, hJget⟩ := List.mem_iff_getElem?.mp hcl
  have hJlt : J < phi.length := (List.getElem?_eq_some.mp hJget).1
  obtain ⟨n, hnS, e, he, hen, heJ⟩ := hex J hJlt
  obtain ⟨jd, k, cl', l, hc', hl', hee⟩ := canonPairs_mem.mp he
  have hjd : jd = J := by
    have h0 : e.1.1 = jd := by rw [hee]; simp
    rw [h0] at heJ
    exact heJ
  subst hjd
  rw [hJget] at hc'
  injection hc' with hc'
  subst hc'
  have hlmem : l ∈ cl := by
    exact List.mem_iff_getElem?.mpr ⟨k, hl'⟩
  refine ⟨l, hlmem, ?_⟩
  have hlit : e.2.1 = l := by rw [hee]
  have hselected : e.2.2 ∈ S := by
    rw [hen]
    exact hnS
  have := hval e he hselected
  rw [hlit] at this
  exact this

/-- Concrete independent set of size 2 in the graph built for `phiW`: the
node of literal `x1` in clause 0 (id 1) and the node of literal `x3` in
clause 1 (id 6). -/
def SW : List Node := [⟨1, "xx1"⟩, ⟨6, "xx3"⟩]

/-- Claim C3 witness — backward soundness applied to the concrete formula
`phiW` and the independent set `SW`. -/
theorem backward_soundness_R1_witness :
    ((∀ n ∈ SW, n ∈ (builtIS phiW).graph.nodes) ∧ SW.Nodup ∧
     IsIndepSet (builtIS phiW).graph SW ∧ SW.length = phiW.length) ∧
    evaluate3Sat phiW (solution2_to_solution1 phiW (builtIS phiW) SW) = true :=
  ⟨⟨by decide, by decide, by decide, by decide⟩,
   backward_soundness_R1 phiW SW (by decide) (by decide) (by decide) (by decide)⟩

/-- Claim C10 — ThreeSATProblem.evaluate returns True iff every clause has
a literal whose required truth value (`not is_negated`) equals the
assignment's value for its variable, variables absent from the assignment
defaulting uniformly to False (`assignment.get(var.name, False)`). -/
theorem evaluate3Sat_iff (phi : Formula) (a : Dict) :
    evaluate3Sat phi a = true ↔
      ∀ c ∈ phi, ∃ l ∈ c, dictGet a l.name false = !l.is_negated :=
  evaluate3Sat_characterization phi a

/-- Concrete two-node graph already containing its one edge, used by the
claim about duplicate edge insertion. -/
def gAB : Graph := ⟨[⟨1, "A"⟩, ⟨2, "B"⟩], [⟨⟨1, "A"⟩, ⟨2, "B"⟩⟩]⟩

/-- Claim C9, counterexample — inserting an already-present edge a second
time does not leave the number of edges unchanged: on the two-node graph
that already has the edge, re-insertion yields 2 edges, not 1
(`Graph.add_edge` adds a freshly constructed `Edge` object to the set, and
object identity makes it a new member). -/
theorem add_edge_duplicate_not_count_idempotent :
    (add_edge gAB ⟨1, "A"⟩ ⟨2, "B"⟩).edges.length ≠ gAB.edges.length := by
  decide

/-- Claim C9, amended — re-inserting an edge whose endpoints are already
adjacent (in either endpoint order, since `hasEdge` is symmetric in the
stored pair) leaves every adjacency query unchanged, but the edge count
grows by one: edge membership is by object identity, not by endpoint
pair. -/
theorem add_edge_duplicate_adjacency_invariant (g : Graph) (u v : Node)
    (h : hasEdge g (some u) (some v) = true) :
    (∀ a b : Option Node, hasEdge (add_edge g u v) a b = hasEdge g a b) ∧
      (add_edge g u v).edges.length = g.edges.length + 1 := by
  constructor
  · intro a b
    simp only [hasEdge, add_edge, List.any_append, List.any_cons, List.any_nil,
      Bool.or_false]
    cases hnew : ((some u == a && some v == b) || (some u == b && some v == a))
    · simp
    · have hsym : hasEdge g a b = true := by
        rcases Bool.or_eq_true_iff.mp hnew with hc | hc
        · obtain ⟨h1, h2⟩ := Bool.and_eq_true_iff.mp hc
          rw [← eq_of_beq h1, ← eq_of_beq h2]
          exact h
        · obtain ⟨h1, h2⟩ := Bool.and_eq_true_iff.mp hc
          rw [← eq_of_beq h1, ← eq_of_beq h2]
          simp only [hasEdge, List.any_eq_true] at h ⊢
          obtain ⟨e, he, hp⟩ := h
          exact ⟨e, he, by
            rcases Bool.or_eq_true_iff.mp hp with hq | hq
            · exact Bool.or_eq_true_iff.mpr (Or.inr hq)
            · exact Bool.or_eq_true_iff.mpr (Or.inl hq)⟩
      simp only [hasEdge] at hsym
      simp [hsym]
  · simp [add_edge]

/-- Claim C9 witness — the amended statement applied to the concrete
two-node graph with the edge already present. -/
theorem add_edge_duplicate_adjacency_invariant_witness :
    (∀ a b : Option Node,
        hasEdge (add_edge gAB ⟨1, "A"⟩ ⟨2, "B"⟩) a b = hasEdge gAB a b) ∧
      (add_edge gAB ⟨1, "A"⟩ ⟨2, "B"⟩).edges.length = gAB.edges.length + 1 :=
  add_edge_duplicate_adjacency_invariant _ _ _ (by decide)

/-- Claim C8 — two problem instances built by their default constructors
(`IndependentSetProblem()` / `ThreeColoringProblem()`, both calling
`Graph()` with no arguments) share the mutable default node set of
`Graph.__init__`; a node added through one instance is immediately a
member of the other instance's graph, whatever the prior store contents. -/
theorem default_graphs_share_node_set (s : PyStore) (name : String) :
    storeMemNodes (problemAddNode s problemInit name).1 problemInit.element
      (problemAddNode s problemInit name).2.2 := by
  simp [storeMemNodes, problemAddNode, storeAddNode, problemInit, graphDefault]

end NPVis

namespace NPVis

/-! Helpers for the 3-coloring round trip: membership of a node in the
solution set named by a color class, and conflict-freeness of every edge
group of the built graph under the canonical coloring. -/

/-- Membership of a node in the solution set named by a color class. -/
def memClass (ss : SolSets) (c : ColClass) (nd : Node) : Prop :=
  match c with
  | .Ctrue => nd ∈ ss.S_true
  | .Cfalse => nd ∈ ss.S_false
  | .Cbase => nd ∈ ss.S_base

theorem memClass_sol_iff {phi : Formula3} {A : Assignment} {c : ColClass} {nd : Node} :
    memClass (solution1_to_solution2_col phi (build_graph_3col phi) A) c nd ↔
      (nd, c) ∈ canonColAssign phi A := by
  rw [sol1to2_col_eq]
  cases c
  · exact mem_filterClass
  · exact mem_filterClass
  · exact mem_filterClass

theorem filterClass_nodup {l : List (Node × ColClass)}
    (hpw : l.Pairwise (fun a b => a.1.node_id < b.1.node_id)) (c : ColClass) :
    (filterClass l c).Nodup := by
  rw [filterClass]
  have h1 := hpw.filter (fun e => e.2 == c)
  have h2 : ((l.filter (fun e => e.2 == c)).map (fun e => e.1)).Pairwise
      (fun a b : Node => a.node_id < b.node_id) := List.pairwise_map.mpr h1
  exact h2.imp (fun h he => absurd h (by rw [he]; exact lt_irrefl _))

theorem canonVarEdges_proper (A : Assignment) (bnode : Node)
    (L : List (Node × ColClass)) (hB : (bnode, ColClass.Cbase) ∈ L) :
    ∀ (names : List String) (s : Nat),
      (∀ p ∈ canonVarAssign A names s, p ∈ L) →
      ∀ e ∈ canonVarEdges bnode names s,
        ∃ c1 c2, c1 ≠ c2 ∧ (e.node1, c1) ∈ L ∧ (e.node2, c2) ∈ L := by
  intro names
  induction names with
  | nil => intro s _ e he; simp [canonVarEdges] at he
  | cons x rest ih =>
    intro s hsub e he
    have hpos : ((⟨s, x⟩ : Node), colorOfBool (A x)) ∈ L :=
      hsub _ (by rw [canonVarAssign]; exact List.mem_cons_self _ _)
    have hneg : ((⟨s + 1, "¬" ++ x⟩ : Node), colorOfBool (!A x)) ∈ L :=
      hsub _ (by
        rw [canonVarAssign]
        exact List.mem_cons_of_mem _ (List.mem_cons_self _ _))
    have hsub' : ∀ p ∈ canonVarAssign A rest (s + 2), p ∈ L := fun p hp =>
      hsub p (by
        rw [canonVarAssign]
        exact List.mem_cons_of_mem _ (List.mem_cons_of_mem _ hp))
    rw [canonVarEdges] at he
    rcases List.mem_cons.mp he with rfl | he
    · exact ⟨colorOfBool (A x), colorOfBool (!A x),
        by cases A x <;> simp [colorOfBool], hpos, hneg⟩
    rcases List.mem_cons.mp he with rfl | he
    · exact ⟨colorOfBool (A x), .Cbase, by cases A x <;> simp [colorOfBool], hpos, hB⟩
    rcases List.mem_cons.mp he with rfl | he
    · exact ⟨colorOfBool (!A x), .Cbase, by cases A x <;> simp [colorOfBool], hneg, hB⟩
    · exact ih (s + 2) hsub' e he

theorem clauseVals_ne_allFalse {A : Assignment} {cl : Clause3}
    (h : litSat A cl.1 = true ∨ litSat A cl.2.1 = true ∨ litSat A cl.2.2 = true) :
    clauseVals A cl ≠ (false, false, false) := by
  intro heq
  rw [clauseVals, Prod.mk.injEq, Prod.mk.injEq] at heq
  rcases h with h | h | h <;> rw [h] at heq <;> simp at heq

end NPVis

namespace NPVis

theorem canonGadgetEdges_proper (A : Assignment) (vns : List (String × Node × Node))
    (L : List (Node × ColClass)) (hB : (baseB, ColClass.Cbase) ∈ L)
    (hF : (baseF, ColClass.Cfalse) ∈ L) :
    ∀ (cls : Formula3) (s : Nat),
      (∀ p ∈ canonClauseAssign A cls s, p ∈ L) →
      (∀ cl ∈ cls,
        (litNodeOf vns cl.1, colorOfBool (litSat A cl.1)) ∈ L ∧
        (litNodeOf vns cl.2.1, colorOfBool (litSat A cl.2.1)) ∈ L ∧
        (litNodeOf vns cl.2.2, colorOfBool (litSat A cl.2.2)) ∈ L) →
      (∀ cl ∈ cls, clauseVals A cl ≠ (false, false, false)) →
      ∀ e ∈ canonGadgetEdges vns baseB baseF cls s,
        ∃ c1 c2, c1 ≠ c2 ∧ (e.node1, c1) ∈ L ∧ (e.node2, c2) ∈ L := by
  intro cls
  induction cls with
  | nil => intro s _ _ _ e he; simp [canonGadgetEdges] at he
  | cons cl rest ih =>
    intro s hsub hlit hval e he
    rw [canonGadgetEdges] at he
    rcases List.mem_append.mp he with he | he
    · obtain ⟨q1, q2, q3, q4, q5, q6, q7, q8, q9, q10, q11, q12⟩ :=
        gadgetRowOk_of_sat (clauseVals A cl) (hval cl (List.mem_cons_self _ _))
      obtain ⟨hl1, hl2, hl3⟩ := hlit cl (List.mem_cons_self _ _)
      have hg : ∀ p ∈ gadgetAssign6 s (orTable (clauseVals A cl)), p ∈ L := fun p hp =>
        hsub p (by rw [canonClauseAssign]; exact List.mem_append_left _ hp)
      have hg1 : ((⟨s, "in1"⟩ : Node), (orTable (clauseVals A cl)).1.1) ∈ L :=
        hg _ (by simp [gadgetAssign6])
      have hg2 : ((⟨s + 1, "in2"⟩ : Node), (orTable (clauseVals A cl)).1.2.1) ∈ L :=
        hg _ (by simp [gadgetAssign6])
      have hg3 : ((⟨s + 2, "out"⟩ : Node), (orTable (clauseVals A cl)).1.2.2) ∈ L :=
        hg _ (by simp [gadgetAssign6])
      have hg4 : ((⟨s + 3, "in1"⟩ : Node), (orTable (clauseVals A cl)).2.1) ∈ L :=
        hg _ (by simp [gadgetAssign6])
      have hg5 : ((⟨s + 4, "in2"⟩ : Node), (orTable (clauseVals A cl)).2.2.1) ∈ L :=
        hg _ (by simp [gadgetAssign6])
      have hg6 : ((⟨s + 5, "out"⟩ : Node), (orTable (clauseVals A cl)).2.2.2) ∈ L :=
        hg _ (by simp [gadgetAssign6])
      simp only [gadgetEdges12, List.mem_cons, List.not_mem_nil, or_false] at he
      rcases he with rfl | rfl | rfl | rfl | rfl | rfl | rfl | rfl | rfl | rfl | rfl | rfl
      · exact ⟨_, _, q1, hg1, hl1⟩
      · exact ⟨_, _, q2, hg2, hl2⟩
      · exact ⟨_, _, q3, hg1, hg2⟩
      · exact ⟨_, _, q4, hg2, hg3⟩
      · exact ⟨_, _, q5, hg3, hg1⟩
      · exact ⟨_, _, q6, hg4, hg3⟩
      · exact ⟨_, _, q7, hg5, hl3⟩
      · exact ⟨_, _, q8, hg4, hg5⟩
      · exact ⟨_, _, q9, hg5, hg6⟩
      · exact ⟨_, _, q10, hg6, hg4⟩
      · exact ⟨_, _, q11, hg6, hB⟩
      · exact ⟨_, _, q12, hg6, hF⟩
    · exact ih (s + 6)
        (fun p hp => hsub p (by
          rw [canonClauseAssign]
          exact List.mem_append_right _ hp))
        (fun c hc => hlit c (List.mem_cons_of_mem _ hc))
        (fun c hc => hval c (List.mem_cons_of_mem _ hc))
        e he

theorem canonOutputs_color_mem (A : Assignment) :
    ∀ (cls : Formula3) (s ci : Nat)
      (trip : (Node × Node × Node) × (Node × Node × Node)) (cl : Clause3),
      (canonOutputs cls s)[ci]? = some trip → cls[ci]? = some cl →
      (trip.1.1, (orTable (clauseVals A cl)).1.1) ∈ canonClauseAssign A cls s ∧
      (trip.1.2.1, (orTable (clauseVals A cl)).1.2.1) ∈ canonClauseAssign A cls s ∧
      (trip.1.2.2, (orTable (clauseVals A cl)).1.2.2) ∈ canonClauseAssign A cls s ∧
      (trip.2.1, (orTable (clauseVals A cl)).2.1) ∈ canonClauseAssign A cls s ∧
      (trip.2.2.1, (orTable (clauseVals A cl)).2.2.1) ∈ canonClauseAssign A cls s ∧
      (trip.2.2.2, (orTable (clauseVals A cl)).2.2.2) ∈ canonClauseAssign A cls s := by
  intro cls
  induction cls with
  | nil =>
    intro s ci trip cl h1 _
    rw [canonOutputs] at h1
    simp at h1
  | cons c0 rest ih =>
    intro s ci trip cl h1 h2
    rw [canonOutputs] at h1
    cases ci with
    | zero =>
      simp only [List.getElem?_cons_zero, Option.some.injEq] at h1 h2
      subst h1
      subst h2
      rw [canonClauseAssign]
      refine ⟨?_, ?_, ?_, ?_, ?_, ?_⟩ <;>
        exact List.mem_append_left _ (by simp [gadgetAssign6])
    | succ n =>
      simp only [List.getElem?_cons_succ] at h1 h2
      have hr := ih (s + 6) n trip cl h1 h2
      rw [canonClauseAssign]
      exact ⟨List.mem_append_right _ hr.1, List.mem_append_right _ hr.2.1,
        List.mem_append_right _ hr.2.2.1, List.mem_append_right _ hr.2.2.2.1,
        List.mem_append_right _ hr.2.2.2.2.1, List.mem_append_right _ hr.2.2.2.2.2⟩

end NPVis

namespace NPVis

/-- `solution1_to_solution2` of the 3-coloring reduction, applied to the
state built from `phi`, returns a proper partition: the three sets cover
every node of the built graph exactly once (every set is duplicate-free,
every node lies in a set, and never in two), no edge of the built graph
has both endpoints in the same set, and the six OR-gadget nodes of each
clause are placed according to the 8-entry table row keyed by the truth
values of the clause's literals. -/
def ProperPartition3Col (phi : Formula3) (A : Assignment) : Prop :=
  (∀ nd, nd ∈ (build_graph_3col phi).nodes ↔
    ∃ c, memClass (solution1_to_solution2_col phi (build_graph_3col phi) A) c nd) ∧
  (∀ nd c1 c2,
    memClass (solution1_to_solution2_col phi (build_graph_3col phi) A) c1 nd →
    memClass (solution1_to_solution2_col phi (build_graph_3col phi) A) c2 nd →
    c1 = c2) ∧
  (solution1_to_solution2_col phi (build_graph_3col phi) A).S_true.Nodup ∧
  (solution1_to_solution2_col phi (build_graph_3col phi) A).S_false.Nodup ∧
  (solution1_to_solution2_col phi (build_graph_3col phi) A).S_base.Nodup ∧
  (∀ e ∈ (build_graph_3col phi).edges, ∀ c,
    ¬(memClass (solution1_to_solution2_col phi (build_graph_3col phi) A) c e.node1 ∧
      memClass (solution1_to_solution2_col phi (build_graph_3col phi) A) c e.node2)) ∧
  (∀ (ci : Nat) (trip : (Node × Node × Node) × (Node × Node × Node)) (cl : Clause3),
    (build_graph_3col phi).clause_outputs[ci]? = some trip →
    phi[ci]? = some cl →
    memClass (solution1_to_solution2_col phi (build_graph_3col phi) A)
      (orTable (clauseVals A cl)).1.1 trip.1.1 ∧
    memClass (solution1_to_solution2_col phi (build_graph_3col phi) A)
      (orTable (clauseVals A cl)).1.2.1 trip.1.2.1 ∧
    memClass (solution1_to_solution2_col phi (build_graph_3col phi) A)
      (orTable (clauseVals A cl)).1.2.2 trip.1.2.2 ∧
    memClass (solution1_to_solution2_col phi (build_graph_3col phi) A)
      (orTable (clauseVals A cl)).2.1 trip.2.1 ∧
    memClass (solution1_to_solution2_col phi (build_graph_3col phi) A)
      (orTable (clauseVals A cl)).2.2.1 trip.2.2.1 ∧
    memClass (solution1_to_solution2_col phi (build_graph_3col phi) A)
      (orTable (clauseVals A cl)).2.2.2 trip.2.2.2)

/-- Claim C2 — R2 round-trip: for every formula and every assignment
satisfying each clause, the 3-coloring reduction's
`solution1_to_solution2` yields three disjoint node sets covering every
node of the built graph exactly once and forming a proper 3-coloring (no
edge joins two nodes of the same set), with each clause's six OR-gadget
nodes colored by the fixed table row for its literal truth values. -/
theorem round_trip_R2 (phi : Formula3) (A : Assignment)
    (hsat : ∀ cl ∈ phi,
      litSat A cl.1 = true ∨ litSat A cl.2.1 = true ∨ litSat A cl.2.2 = true) :
    ProperPartition3Col phi A := by
  have hmem : ∀ (c : ColClass) (nd : Node),
      memClass (solution1_to_solution2_col phi (build_graph_3col phi) A) c nd ↔
        (nd, c) ∈ canonColAssign phi A := fun c nd => memClass_sol_iff
  have hpw := canonColAssign_pairwise phi A
  have hfst := canonColAssign_fst phi A
  have hBL : (baseB, ColClass.Cbase) ∈ canonColAssign phi A := by
    rw [canonColAssign]
    exact List.mem_append_left _ (List.mem_append_left _ (List.mem_cons_self _ _))
  have hTL : (baseT, ColClass.Ctrue) ∈ canonColAssign phi A := by
    rw [canonColAssign]
    exact List.mem_append_left _ (List.mem_append_left _
      (List.mem_cons_of_mem _ (List.mem_cons_self _ _)))
  have hFL : (baseF, ColClass.Cfalse) ∈ canonColAssign phi A := by
    rw [canonColAssign]
    exact List.mem_append_left _ (List.mem_append_left _
      (List.mem_cons_of_mem _ (List.mem_cons_of_mem _ (List.mem_cons_self _ _))))
  have hsubV : ∀ p ∈ canonVarAssign A (varNames3 phi) 4, p ∈ canonColAssign phi A := by
    intro p hp
    rw [canonColAssign]
    exact List.mem_append_left _ (List.mem_append_right _ hp)
  have hsubC : ∀ p ∈ canonClauseAssign A phi (4 + 2 * (varNames3 phi).length),
      p ∈ canonColAssign phi A := by
    intro p hp
    rw [canonColAssign]
    exact List.mem_append_right _ hp
  have hlit : ∀ cl ∈ phi,
      (litNodeOf (canonVarNodes (varNames3 phi) 4) cl.1,
        colorOfBool (litSat A cl.1)) ∈ canonColAssign phi A ∧
      (litNodeOf (canonVarNodes (varNames3 phi) 4) cl.2.1,
        colorOfBool (litSat A cl.2.1)) ∈ canonColAssign phi A ∧
      (litNodeOf (canonVarNodes (varNames3 phi) 4) cl.2.2,
        colorOfBool (litSat A cl.2.2)) ∈ canonColAssign phi A := by
    intro cl hcl
    obtain ⟨hn1, hn2, hn3⟩ := varNames3_mem hcl
    exact ⟨hsubV _ (litNode_color A cl.1 (varNames3 phi) 4 hn1),
      hsubV _ (litNode_color A cl.2.1 (varNames3 phi) 4 hn2),
      hsubV _ (litNode_color A cl.2.2 (varNames3 phi) 4 hn3)⟩
  have hval : ∀ cl ∈ phi, clauseVals A cl ≠ (false, false, false) := fun cl hcl =>
    clauseVals_ne_allFalse (hsat cl hcl)
  unfold ProperPartition3Col
  refine ⟨?_, ?_, ?_, ?_, ?_, ?_, ?_⟩
  · intro nd
    rw [← hfst]
    constructor
    · intro h
      obtain ⟨⟨p1, p2⟩, hp, hpe⟩ := List.mem_map.mp h
      have hpe' : p1 = nd := hpe
      subst hpe'
      exact ⟨p2, (hmem _ _).mpr hp⟩
    · rintro ⟨c, hc⟩
      exact List.mem_map.mpr ⟨(nd, c), (hmem _ _).mp hc, rfl⟩
  · intro nd c1 c2 h1 h2
    exact colAssign_fst_unique ((hmem _ _).mp h1) ((hmem _ _).mp h2)
  · rw [sol1to2_col_eq]
    exact filterClass_nodup hpw _
  · rw [sol1to2_col_eq]
    exact filterClass_nodup hpw _
  · rw [sol1to2_col_eq]
    exact filterClass_nodup hpw _
  · intro e he c hcc
    have h1 := (hmem c e.node1).mp hcc.1
    have h2 := (hmem c e.node2).mp hcc.2
    rw [build_graph_3col_eq] at he
    have hedge : ∃ c1 c2, c1 ≠ c2 ∧ (e.node1, c1) ∈ canonColAssign phi A ∧
        (e.node2, c2) ∈ canonColAssign phi A := by
      rcases List.mem_append.mp he with he | he
      · rcases List.mem_append.mp he with he | he
        · simp only [List.mem_cons, List.not_mem_nil, or_false] at he
          rcases he with rfl | rfl | rfl
          · exact ⟨.Cbase, .Ctrue, by decide, hBL, hTL⟩
          · exact ⟨.Ctrue, .Cfalse, by decide, hTL, hFL⟩
          · exact ⟨.Cfalse, .Cbase, by decide, hFL, hBL⟩
        · exact canonVarEdges_proper A baseB (canonColAssign phi A) hBL
            (varNames3 phi) 4 hsubV e he
      · exact canonGadgetEdges_proper A (canonVarNodes (varNames3 phi) 4)
          (canonColAssign phi A) hBL hFL phi (4 + 2 * (varNames3 phi).length)
          hsubC hlit hval e he
    obtain ⟨c1, c2, hne, hm1, hm2⟩ := hedge
    exact hne ((colAssign_fst_unique h1 hm1).symm.trans (colAssign_fst_unique h2 hm2))
  · intro ci trip cl h1 h2
    have h1' : (canonOutputs phi (4 + 2 * (varNames3 phi).length))[ci]? = some trip := by
      rw [build_graph_3col_eq] at h1
      exact h1
    have h6 := canonOutputs_color_mem A phi (4 + 2 * (varNames3 phi).length) ci trip cl
      h1' h2
    exact ⟨(hmem _ _).mpr (hsubC _ h6.1), (hmem _ _).mpr (hsubC _ h6.2.1),
      (hmem _ _).mpr (hsubC _ h6.2.2.1), (hmem _ _).mpr (hsubC _ h6.2.2.2.1),
      (hmem _ _).mpr (hsubC _ h6.2.2.2.2.1), (hmem _ _).mpr (hsubC _ h6.2.2.2.2.2)⟩

/-- A one-clause formula used to instantiate the R2 round trip. -/
def phiW3 : Formula3 := [(⟨"x1", false⟩, ⟨"x2", false⟩, ⟨"x3", false⟩)]

/-- Claim C2 witness — the round trip instantiated on a concrete
one-clause formula and the all-true assignment, which satisfies it. -/
theorem round_trip_R2_witness : ProperPartition3Col phiW3 assignW :=
  round_trip_R2 phiW3 assignW (by decide)

end NPVis

namespace NPVis

/-- A concrete coloring making every node C_false except the base node
(id 1), used to instantiate the negative case. -/
def chiW : Node → ColClass :=
  fun nd => if nd.node_id = 1 then ColClass.Cbase else ColClass.Cfalse

/-- Claim C5 — R2 negative case: when the three literal nodes of a clause
are colored C_false, the base node C_base and the false node C_false (as
they are in every proper coloring up to renaming), no coloring of the six
OR-gadget nodes passes the 3-coloring evaluator on the clause gadget's
twelve edges: in particular no extension colors `out123` C_true, since
none is conflict-free at all. -/
theorem or_gadget_all_false_no_coloring (s : Nat) (n1 n2 n3 bn fn : Node)
    (chi : Node → ColClass)
    (h1 : chi n1 = ColClass.Cfalse) (h2 : chi n2 = ColClass.Cfalse)
    (h3 : chi n3 = ColClass.Cfalse) (hb : chi bn = ColClass.Cbase)
    (hf : chi fn = ColClass.Cfalse) :
    evaluate3Col (gadgetEdges12 s n1 n2 n3 bn fn) chi = false := by
  rw [evaluate3Col, gadgetEdges12]
  simp only [List.all_cons, List.all_nil, Bool.and_true]
  rw [h1, h2, h3, hb, hf]
  generalize chi (Node.mk s "in1") = g1
  generalize chi (Node.mk (s + 1) "in2") = g2
  generalize chi (Node.mk (s + 2) "out") = g3
  generalize chi (Node.mk (s + 3) "in1") = g4
  generalize chi (Node.mk (s + 4) "in2") = g5
  generalize chi (Node.mk (s + 5) "out") = g6
  revert g1 g2 g3 g4 g5 g6
  decide

/-- Claim C5 witness — the negative case instantiated with concrete
literal, base and false nodes and the concrete coloring `chiW`. -/
theorem or_gadget_all_false_no_coloring_witness :
    evaluate3Col (gadgetEdges12 10 ⟨100, "a"⟩ ⟨101, "b"⟩ ⟨102, "c"⟩ ⟨1, "Base"⟩
      ⟨3, "False"⟩) chiW = false :=
  or_gadget_all_false_no_coloring 10 ⟨100, "a"⟩ ⟨101, "b"⟩ ⟨102, "c"⟩ ⟨1, "Base"⟩
    ⟨3, "False"⟩ chiW (by decide) (by decide) (by decide) (by decide) (by decide)

end NPVis
